import Mathlib

/-!
# Verification of the skydns `registry` package

This file gives a shallow embedding of `registry/registry.go` (the
service-discovery registry of skydns) and proves properties of it.

Modelling conventions:

* `msg.Service` becomes the structure `Service`; its `uint32` TTL field is
  modelled as `Nat` (no arithmetic that could overflow is performed on it).
* `time.Time` instants are modelled as `Nat`; every operation that reads the
  clock (`time.Now()`) takes the current instant as an explicit `now`
  parameter.  `time.Now().After(e)` is the strict comparison `e < now`.
* Go maps become association lists with Go's map semantics (`alookup`,
  `ainsert` replacing an existing binding in place, `aerase`).  The list
  order is a determinisation of Go's unspecified iteration order; theorems
  about iteration results are stated up to membership / permutation.
* Go pointers to `node` values are modelled by giving every allocated node a
  unique id (`vid`, drawn from an allocation counter `fresh`).  The mutable
  per-node fields that are ever accessed through such pointers (`value` and
  `expires`) live in a heap `vid ↦ (value, expires)`, so in-place mutation
  through an aliased pointer (as in `UpdateTTL`) is visible both through the
  identity index and through the tree, exactly as in Go — including through
  dangling pointers to nodes no longer reachable from the tree root.
  The structural fields (`leaves`, `depth`, `length`) are only ever accessed
  through the tree itself, so they stay inside the tree value.
* `strings.Split(s, ".")` with the one-character separator `"."` is exactly
  splitting at every `'.'` character, i.e. `String.split s (fun c => c = '.')`
  (both return `[""]` on the empty string and keep empty fields).
* `strings.ToLower` is `String.toLower`; the two agree on ASCII data (Lean's
  `Char.toLower` only lowers basic-latin letters, which is all the claims
  exercise).
* Fallible Go functions returning `error` become functions returning their
  updated state paired with `Except RegErr _`; Go's in-place mutations that
  survive an error (e.g. internal nodes created by `node.add` before a
  failure deeper down) are faithfully kept in the returned state.
-/

set_option linter.unusedVariables false

/-- `msg.Service`, the externally supplied service record. -/
structure Service where
  uuid : String
  host : String
  region : String
  version : String
  name : String
  environment : String
  ttl : Nat
deriving DecidableEq, Repr

/-- The zero value of `msg.Service` (Go's zero struct). -/
def Service.zero : Service := ⟨"", "", "", "", "", "", 0⟩

/-- The two error values `ErrExists` and `ErrNotExists` of the registry. -/
inductive RegErr where
  | ErrExists
  | ErrNotExists
deriving DecidableEq, Repr

deriving instance DecidableEq for Except

/-! ## Association lists with Go map semantics -/

/-- Go map read `m[k]` (with its `ok` flag as `Option`). -/
def alookup [DecidableEq κ] : List (κ × α) → κ → Option α
  | [], _ => none
  | (k', v) :: t, k => if k = k' then some v else alookup t k

/-- Go map write `m[k] = v`: replaces an existing binding in place,
otherwise appends a new one. -/
def ainsert [DecidableEq κ] : List (κ × α) → κ → α → List (κ × α)
  | [], k, v => [(k, v)]
  | (k', v') :: t, k, v =>
    if k = k' then (k, v) :: t else (k', v') :: ainsert t k v

/-- Go map `delete(m, k)`. -/
def aerase [DecidableEq κ] : List (κ × α) → κ → List (κ × α)
  | [], _ => []
  | (k', v') :: t, k => if k = k' then t else (k', v') :: aerase t k

/-! ## The tree -/

/-- The (`value`, `expires`) fields of every allocated node, addressed by the
node's id.  This is the part of a node that Go code reaches through stored
pointers (`DefaultRegistry.nodes`). -/
abbrev Heap := List (Nat × (Service × Nat))

/-- Dereference a node id.  Ids handed out by the allocator are always
present; the default is the zero value a fresh Go node carries. -/
def heapVal (h : Heap) (v : Nat) : Service × Nat :=
  (alookup h v).getD (Service.zero, 0)

/-- `type node struct`: `leaves` (label → child), `length`, `depth`, and the
id `vid` standing for the node's address (its `value`/`expires` fields are
`heapVal heap vid`). -/
inductive Node where
  | mk : List (String × Node) → Int → Nat → Nat → Node
deriving Repr

def Node.leaves : Node → List (String × Node)
  | .mk l _ _ _ => l

def Node.length : Node → Int
  | .mk _ n _ _ => n

def Node.depth : Node → Nat
  | .mk _ _ d _ => d

def Node.vid : Node → Nat
  | .mk _ _ _ v => v

@[simp] theorem Node.leaves_mk (l : List (String × Node)) (n d v) :
    (Node.mk l n d v).leaves = l := rfl

@[simp] theorem Node.length_mk (l : List (String × Node)) (n d v) :
    (Node.mk l n d v).length = n := rfl

@[simp] theorem Node.depth_mk (l : List (String × Node)) (n d v) :
    (Node.mk l n d v).depth = d := rfl

@[simp] theorem Node.vid_mk (l : List (String × Node)) (n d v) :
    (Node.mk l n d v).vid = v := rfl

/-- `func (n *node) size() int { return n.length }` -/
def Node.size (n : Node) : Int := n.length

/-!
`node.add`, `node.remove` and `node.get` all consume the label slice from
its *last* element down to its first (`k := tree[len(tree)-1]`, recursing on
`tree[:len(tree)-1]`, with `len(tree) == 1` handling `tree[0]`).  That is
precisely head-first structural recursion on the *reversed* slice, so the
workers below (`addRev`, `removeRev`, `getRev`) take the reversed label list
and the source-facing wrappers (`Node.add`, …) reverse their argument.

Go panics when these are called on an empty slice (`tree[-1]`); the public
API never does that (`strings.Split` never returns an empty slice, and the
recursion stops at length 1), and the `[]` equations below return an error
without touching anything.
-/

/-- Worker for `node.add`, on the reversed label list.  Returns the updated
subtree, the updated allocator and heap, and either the id of the created
leaf or the error.  As in Go, internal nodes created on the way down are kept
even if an error occurs further down (no such execution exists, as proved
later, but the translation does not assume that). -/
def Node.addRev (n : Node) (rtree : List String) (s : Service) (now : Nat)
    (fresh : Nat) (heap : Heap) : Node × Nat × Heap × Except RegErr Nat :=
  match rtree with
  | [] => (n, fresh, heap, .error .ErrNotExists)
  | [x] =>
    if (alookup n.leaves x).isSome then
      (n, fresh, heap, .error .ErrExists)
    else
      (Node.mk (ainsert n.leaves x (Node.mk [] 0 (n.depth + 1) fresh))
        (n.length + 1) n.depth n.vid,
       fresh + 1, ainsert heap fresh (s, now + s.ttl), .ok fresh)
  | k :: r2 :: rest =>
    match alookup n.leaves k with
    | some c =>
      let res := c.addRev (r2 :: rest) s now fresh heap
      (Node.mk (ainsert n.leaves k res.1)
         (if (res.2.2.2).isOk then n.length + 1 else n.length) n.depth n.vid,
       res.2.1, res.2.2.1, res.2.2.2)
    | none =>
      let c := Node.mk [] 0 (n.depth + 1) fresh
      let res := c.addRev (r2 :: rest) s now (fresh + 1)
        (ainsert heap fresh (Service.zero, 0))
      (Node.mk (ainsert n.leaves k res.1)
         (if (res.2.2.2).isOk then n.length + 1 else n.length) n.depth n.vid,
       res.2.1, res.2.2.1, res.2.2.2)

/-- `func (n *node) add(tree []string, s msg.Service) (*node, error)`. -/
def Node.add (n : Node) (tree : List String) (s : Service) (now : Nat)
    (fresh : Nat) (heap : Heap) : Node × Nat × Heap × Except RegErr Nat :=
  n.addRev tree.reverse s now fresh heap

/-- Worker for `node.remove`, on the reversed label list.  Returns the
updated subtree and the status. -/
def Node.removeRev (n : Node) (rtree : List String) :
    Node × Except RegErr Unit :=
  match rtree with
  | [] => (n, .error .ErrNotExists)
  | [x] =>
    if (alookup n.leaves x).isSome then
      (Node.mk (aerase n.leaves x) (n.length - 1) n.depth n.vid, .ok ())
    else
      (n, .error .ErrNotExists)
  | k :: r2 :: rest =>
    match alookup n.leaves k with
    | none => (n, .error .ErrNotExists)
    | some c =>
      let res := c.removeRev (r2 :: rest)
      if (res.2).isOk then
        if res.1.size = 0 then
          (Node.mk (aerase (ainsert n.leaves k res.1) k) (n.length - 1)
            n.depth n.vid, res.2)
        else
          (Node.mk (ainsert n.leaves k res.1) (n.length - 1) n.depth n.vid,
           res.2)
      else
        (Node.mk (ainsert n.leaves k res.1) n.length n.depth n.vid, res.2)

/-- `func (n *node) remove(tree []string) error`. -/
def Node.remove (n : Node) (tree : List String) : Node × Except RegErr Unit :=
  n.removeRev tree.reverse

/-- Worker for `node.get`, on the reversed label list. -/
def Node.getRev (n : Node) (rtree : List String) (heap : Heap) :
    Except RegErr (List Service) :=
  match rtree with
  | [] => .error .ErrNotExists
  | [x] =>
    if x = "all" ∨ x = "any" then
      if n.leaves.isEmpty then .error .ErrNotExists
      else .ok (n.leaves.map fun p => (heapVal heap p.2.vid).1)
    else
      match alookup n.leaves x with
      | none => .error .ErrNotExists
      | some c => .ok [(heapVal heap c.vid).1]
  | k :: r2 :: rest =>
    if k = "all" ∨ k = "any" then
      if n.leaves.isEmpty then .error .ErrNotExists
      else
        let results := n.leaves.filterMap fun p =>
          match p.2.getRev (r2 :: rest) heap with
          | .ok ss => some ss
          | .error _ => none
        if results = [] then .error .ErrNotExists
        else .ok results.flatten
    else
      match alookup n.leaves k with
      | none => .error .ErrNotExists
      | some c => c.getRev (r2 :: rest) heap

/-- `func (n *node) get(tree []string) ([]msg.Service, error)`. -/
def Node.get (n : Node) (tree : List String) (heap : Heap) :
    Except RegErr (List Service) :=
  n.getRev tree.reverse heap

/-! ## Key encoding -/

/-- `strings.ToLower`: character-wise lowering (Go is Unicode-aware, Lean's
`Char.toLower` is basic-latin only; they agree on ASCII, which is all the
claims exercise).  Written on the character list so it computes; equal to
`String.toLower` by `goToLower_eq_toLower` below. -/
def goToLower (s : String) : String :=
  ⟨s.data.map Char.toLower⟩

/-- `strings.Replace(s, ".", "-", -1)`: with a one-character pattern and
replacement this is exactly the character-wise map sending `'.'` to `'-'`. -/
def goReplaceDotDash (s : String) : String :=
  ⟨s.data.map fun c => if c = '.' then '-' else c⟩

/-- `strings.Split(s, ".")`: with the one-character separator `"."` this is
exactly splitting at every `'.'` character (both return `[""]` on the empty
string and keep empty fields).  Written on the character list so it
computes; equal to `String.split s (fun c => c = '.')` by `goSplit_eq_split`
below. -/
def goSplit (s : String) : List String :=
  (List.splitOnP (fun c => c = '.') s.data).map String.mk

/-- `func getRegistryKey(s msg.Service) string`:
`strings.ToLower(fmt.Sprintf("%s.%s.%s.%s.%s.%s", s.UUID, s.Host, s.Region,
strings.Replace(s.Version, ".", "-", -1), s.Name, s.Environment))`. -/
def getRegistryKey (s : Service) : String :=
  goToLower (s.uuid ++ "." ++ s.host ++ "." ++ s.region ++ "." ++
    goReplaceDotDash s.version ++ "." ++ s.name ++ "." ++ s.environment)

/-- `func getExpirationTime(ttl uint32) time.Time`: `now + ttl` seconds. -/
def getExpirationTime (ttl : Nat) (now : Nat) : Nat := now + ttl

/-- The DNS trailing-dot strip at the top of `DefaultRegistry.Get`:
`strings.HasSuffix(domain, ".")` holds iff the last character is `'.'`
(`"."` is a single byte), and `domain[:len(domain)-1]` then drops exactly
that character. -/
def stripTrailingDot (domain : String) : String :=
  if domain.data.getLast? = some '.' then ⟨domain.data.dropLast⟩ else domain

/-! ## The registry facade -/

/-- `type DefaultRegistry struct`: the tree, the identity index
`nodes : uuid ↦ node pointer` (pointers are node ids), plus the model's
allocator state (`heap`, `fresh`) standing for Go's memory. -/
structure DefaultRegistry where
  tree : Node
  nodes : List (String × Nat)
  heap : Heap
  fresh : Nat
deriving Repr

namespace DefaultRegistry

/-- `func New() Registry`. -/
def New : DefaultRegistry :=
  { tree := Node.mk [] 0 0 0
    nodes := []
    heap := [(0, (Service.zero, 0))]
    fresh := 1 }

/-- `func (r *DefaultRegistry) Add(s msg.Service) error`. -/
def Add (r : DefaultRegistry) (s : Service) (now : Nat) :
    DefaultRegistry × Except RegErr Unit :=
  if (alookup r.nodes s.uuid).isSome then
    (r, .error .ErrExists)
  else
    let k := getRegistryKey s
    let res := r.tree.add (goSplit k) s now r.fresh r.heap
    match res.2.2.2 with
    | .ok lv =>
      ({ tree := res.1
         nodes := ainsert r.nodes (heapVal res.2.2.1 lv).1.uuid lv
         heap := res.2.2.1
         fresh := res.2.1 }, .ok ())
    | .error e =>
      ({ r with tree := res.1, heap := res.2.2.1, fresh := res.2.1 },
       .error e)

/-- `func (r *DefaultRegistry) Remove(s msg.Service) (err error)`. -/
def Remove (r : DefaultRegistry) (s : Service) :
    DefaultRegistry × Except RegErr Unit :=
  let k := getRegistryKey s
  let res := r.tree.remove (goSplit k)
  match res.2 with
  | .error e => ({ r with tree := res.1 }, .error e)
  | .ok _ =>
    ({ r with tree := res.1, nodes := aerase r.nodes s.uuid }, .ok ())

/-- `func (r *DefaultRegistry) RemoveUUID(uuid string) error`. -/
def RemoveUUID (r : DefaultRegistry) (uuid : String) :
    DefaultRegistry × Except RegErr Unit :=
  match alookup r.nodes uuid with
  | some v => r.Remove (heapVal r.heap v).1
  | none => (r, .error .ErrNotExists)

/-- `func (r *DefaultRegistry) UpdateTTL(uuid string, ttl uint32) error`:
in-place mutation of the node's `value.TTL` and `expires` fields through the
stored pointer. -/
def UpdateTTL (r : DefaultRegistry) (uuid : String) (ttl : Nat) (now : Nat) :
    DefaultRegistry × Except RegErr Unit :=
  match alookup r.nodes uuid with
  | some v =>
    let old := heapVal r.heap v
    let heap' := ainsert r.heap v
      ({ old.1 with ttl := ttl }, getExpirationTime ttl now)
    ({ r with heap := heap' }, .ok ())
  | none => (r, .error .ErrNotExists)

/-- `func (r *DefaultRegistry) GetUUID(uuid string) (s msg.Service, err error)`. -/
def GetUUID (r : DefaultRegistry) (uuid : String) : Except RegErr Service :=
  match alookup r.nodes uuid with
  | some v => .ok (heapVal r.heap v).1
  | none => .error .ErrNotExists

/-- `func (r *DefaultRegistry) Get(domain string) ([]msg.Service, error)`. -/
def Get (r : DefaultRegistry) (domain : String) :
    Except RegErr (List Service) :=
  let domain := stripTrailingDot domain
  let tree := goSplit domain
  let tree :=
    if tree.length < 6 then
      List.replicate (6 - tree.length) "any" ++ tree
    else tree
  r.tree.get tree r.heap

/-- `func (r *DefaultRegistry) GetExpired() (uuids []string)`. -/
def GetExpired (r : DefaultRegistry) (now : Nat) : List String :=
  (r.nodes.filter fun p => (heapVal r.heap p.2).2 < now).map
    fun p => (heapVal r.heap p.2).1.uuid

/-- `func (r *DefaultRegistry) Len() int`. -/
def Len (r : DefaultRegistry) : Int := r.tree.size

end DefaultRegistry

/-! ## Bridges between the list-level string helpers and the `String` API -/

theorem goToLower_eq_toLower (s : String) : goToLower s = s.toLower := by
  rw [String.toLower, String.map_eq]; rfl

theorem goSplit_eq_split (s : String) :
    goSplit s = s.split fun c => c = '.' := by
  rw [String.split_of_valid]; rfl

/-! ## Association list lemmas -/

section Assoc

variable [DecidableEq κ]

@[simp] theorem alookup_nil (k : κ) : alookup ([] : List (κ × α)) k = none := rfl

theorem alookup_cons (k' : κ) (v : α) (t k) :
    alookup ((k', v) :: t) k = if k = k' then some v else alookup t k := rfl

@[simp] theorem ainsert_nil (k : κ) (v : α) : ainsert [] k v = [(k, v)] := rfl

@[simp] theorem aerase_nil (k : κ) : aerase ([] : List (κ × α)) k = [] := rfl

@[simp] theorem alookup_ainsert_self (l : List (κ × α)) (k v) :
    alookup (ainsert l k v) k = some v := by
  induction l with
  | nil => simp [ainsert, alookup]
  | cons p t ih =>
    obtain ⟨k', v'⟩ := p
    by_cases h : k = k' <;> simp [ainsert, alookup, h, ih]

theorem alookup_ainsert_ne (l : List (κ × α)) {k k'} (v) (h : k' ≠ k) :
    alookup (ainsert l k v) k' = alookup l k' := by
  induction l with
  | nil => simp [ainsert, alookup, h]
  | cons p t ih =>
    obtain ⟨k₀, v₀⟩ := p
    by_cases h0 : k = k₀
    · subst h0; simp [ainsert, alookup, h]
    · by_cases h1 : k' = k₀ <;> simp [ainsert, alookup, h0, h1, ih]

theorem ainsert_self_of_lookup {l : List (κ × α)} {k v}
    (h : alookup l k = some v) : ainsert l k v = l := by
  induction l with
  | nil => simp [alookup] at h
  | cons p t ih =>
    obtain ⟨k₀, v₀⟩ := p
    by_cases h0 : k = k₀
    · subst h0
      simp [alookup] at h
      simp [ainsert, h]
    · simp [alookup, h0] at h
      simp [ainsert, h0, ih h]

theorem alookup_eq_none_iff (l : List (κ × α)) (k) :
    alookup l k = none ↔ k ∉ l.map Prod.fst := by
  induction l with
  | nil => simp
  | cons p t ih =>
    obtain ⟨k₀, v₀⟩ := p
    by_cases h0 : k = k₀ <;> simp [alookup_cons, h0, ih]

@[simp] theorem alookup_aerase_self (l : List (κ × α)) (k)
    (hnd : (l.map Prod.fst).Nodup) : alookup (aerase l k) k = none := by
  induction l with
  | nil => simp
  | cons p t ih =>
    obtain ⟨k₀, v₀⟩ := p
    simp only [List.map_cons, List.nodup_cons] at hnd
    by_cases h0 : k = k₀
    · subst h0
      simp only [aerase, if_pos rfl]
      exact (alookup_eq_none_iff t k).2 hnd.1
    · simp [aerase, h0, alookup_cons, ih hnd.2]

theorem alookup_aerase_ne (l : List (κ × α)) {k k'} (h : k' ≠ k) :
    alookup (aerase l k) k' = alookup l k' := by
  induction l with
  | nil => simp
  | cons p t ih =>
    obtain ⟨k₀, v₀⟩ := p
    by_cases h0 : k = k₀
    · subst h0; simp [aerase, alookup_cons, h, ih]
    · by_cases h1 : k' = k₀ <;> simp [aerase, alookup_cons, h0, h1, ih]

theorem aerase_of_lookup_none {l : List (κ × α)} {k}
    (h : alookup l k = none) : aerase l k = l := by
  induction l with
  | nil => rfl
  | cons p t ih =>
    obtain ⟨k₀, v₀⟩ := p
    by_cases h0 : k = k₀
    · subst h0; simp [alookup_cons] at h
    · simp [alookup_cons, h0] at h
      simp [aerase, h0, ih h]

theorem keys_ainsert_of_some {l : List (κ × α)} {k} (v)
    (h : (alookup l k).isSome) :
    (ainsert l k v).map Prod.fst = l.map Prod.fst := by
  induction l with
  | nil => simp [alookup] at h
  | cons p t ih =>
    obtain ⟨k₀, v₀⟩ := p
    by_cases h0 : k = k₀
    · subst h0; simp [ainsert]
    · simp only [alookup_cons, if_neg h0] at h
      simp [ainsert, h0, ih h]

theorem keys_ainsert_of_none {l : List (κ × α)} {k} (v)
    (h : alookup l k = none) :
    (ainsert l k v).map Prod.fst = l.map Prod.fst ++ [k] := by
  induction l with
  | nil => simp
  | cons p t ih =>
    obtain ⟨k₀, v₀⟩ := p
    by_cases h0 : k = k₀
    · subst h0; simp [alookup_cons] at h
    · simp [alookup_cons, h0] at h
      simp [ainsert, h0, ih h]

theorem keys_ainsert_nodup {l : List (κ × α)} (k v)
    (h : (l.map Prod.fst).Nodup) : ((ainsert l k v).map Prod.fst).Nodup := by
  rcases ho : alookup l k with _ | v'
  · rw [keys_ainsert_of_none v ho]
    simp only [List.nodup_append, List.nodup_singleton, true_and]
    refine ⟨h, ?_⟩
    intro a ha hb
    simp only [List.mem_singleton] at hb
    subst hb
    exact absurd ho (by simp [alookup_eq_none_iff, ha])
  · rw [keys_ainsert_of_some v (by simp [ho])]
    exact h

theorem aerase_sublist (l : List (κ × α)) (k) : (aerase l k).Sublist l := by
  induction l with
  | nil => simp
  | cons p t ih =>
    obtain ⟨k₀, v₀⟩ := p
    by_cases h0 : k = k₀
    · subst h0; simp [aerase]
    · simpa [aerase, h0] using ih.cons₂ (k₀, v₀)

theorem keys_aerase_nodup {l : List (κ × α)} (k)
    (h : (l.map Prod.fst).Nodup) : ((aerase l k).map Prod.fst).Nodup :=
  ((aerase_sublist l k).map Prod.fst).nodup h

theorem mem_of_alookup_eq_some {l : List (κ × α)} {k v}
    (h : alookup l k = some v) : (k, v) ∈ l := by
  induction l with
  | nil => simp [alookup] at h
  | cons p t ih =>
    obtain ⟨k₀, v₀⟩ := p
    by_cases h0 : k = k₀
    · subst h0
      simp [alookup_cons] at h
      simp [h]
    · simp only [alookup_cons, if_neg h0] at h
      exact List.mem_cons_of_mem _ (ih h)

theorem alookup_eq_some_of_mem {l : List (κ × α)} {k v}
    (hnd : (l.map Prod.fst).Nodup) (h : (k, v) ∈ l) :
    alookup l k = some v := by
  induction l with
  | nil => simp at h
  | cons p t ih =>
    obtain ⟨k₀, v₀⟩ := p
    simp only [List.map_cons, List.nodup_cons] at hnd
    rcases List.mem_cons.1 h with heq | hm
    · obtain ⟨rfl, rfl⟩ := Prod.mk.injEq .. ▸ heq
      simp [alookup_cons]
    · have hk : k ≠ k₀ := by
        rintro rfl
        exact hnd.1 (List.mem_map.2 ⟨(k, v), hm, rfl⟩)
      simp [alookup_cons, hk, ih hnd.2 hm]

end Assoc

/-! ## Basic tree lemmas -/

theorem Node.eta (n : Node) : Node.mk n.leaves n.length n.depth n.vid = n := by
  cases n; rfl

@[simp] theorem Node.addRev_nil (n : Node) (s now fresh heap) :
    Node.addRev n [] s now fresh heap = (n, fresh, heap, .error .ErrNotExists) :=
  rfl

theorem Node.addRev_single (n : Node) (x s now fresh heap) :
    Node.addRev n [x] s now fresh heap =
      if (alookup n.leaves x).isSome then
        (n, fresh, heap, .error .ErrExists)
      else
        (Node.mk (ainsert n.leaves x (Node.mk [] 0 (n.depth + 1) fresh))
          (n.length + 1) n.depth n.vid,
         fresh + 1, ainsert heap fresh (s, now + s.ttl), .ok fresh) := rfl

theorem Node.addRev_cons_some {n : Node} {k c} (h : alookup n.leaves k = some c)
    (r2 : String) (rest : List String) (s now fresh heap) :
    Node.addRev n (k :: r2 :: rest) s now fresh heap =
      (Node.mk (ainsert n.leaves k
          (Node.addRev c (r2 :: rest) s now fresh heap).1)
         (if ((Node.addRev c (r2 :: rest) s now fresh heap).2.2.2).isOk then
            n.length + 1
          else n.length) n.depth n.vid,
       (Node.addRev c (r2 :: rest) s now fresh heap).2.1,
       (Node.addRev c (r2 :: rest) s now fresh heap).2.2.1,
       (Node.addRev c (r2 :: rest) s now fresh heap).2.2.2) := by
  simp only [Node.addRev, h]

theorem Node.addRev_cons_none {n : Node} {k} (h : alookup n.leaves k = none)
    (r2 : String) (rest : List String) (s now fresh heap) :
    Node.addRev n (k :: r2 :: rest) s now fresh heap =
      (Node.mk (ainsert n.leaves k
          (Node.addRev (Node.mk [] 0 (n.depth + 1) fresh) (r2 :: rest) s now
            (fresh + 1) (ainsert heap fresh (Service.zero, 0))).1)
         (if ((Node.addRev (Node.mk [] 0 (n.depth + 1) fresh) (r2 :: rest) s now
            (fresh + 1) (ainsert heap fresh (Service.zero, 0))).2.2.2).isOk then
            n.length + 1
          else n.length) n.depth n.vid,
       (Node.addRev (Node.mk [] 0 (n.depth + 1) fresh) (r2 :: rest) s now
         (fresh + 1) (ainsert heap fresh (Service.zero, 0))).2.1,
       (Node.addRev (Node.mk [] 0 (n.depth + 1) fresh) (r2 :: rest) s now
         (fresh + 1) (ainsert heap fresh (Service.zero, 0))).2.2.1,
       (Node.addRev (Node.mk [] 0 (n.depth + 1) fresh) (r2 :: rest) s now
         (fresh + 1) (ainsert heap fresh (Service.zero, 0))).2.2.2) := by
  simp only [Node.addRev, h]

@[simp] theorem Node.removeRev_nil (n : Node) :
    Node.removeRev n [] = (n, .error .ErrNotExists) := rfl

theorem Node.removeRev_single (n : Node) (x) :
    Node.removeRev n [x] =
      if (alookup n.leaves x).isSome then
        (Node.mk (aerase n.leaves x) (n.length - 1) n.depth n.vid, .ok ())
      else
        (n, .error .ErrNotExists) := rfl

theorem Node.removeRev_cons_none {n : Node} {k} (h : alookup n.leaves k = none)
    (r2 : String) (rest : List String) :
    Node.removeRev n (k :: r2 :: rest) = (n, .error .ErrNotExists) := by
  simp only [Node.removeRev, h]

theorem Node.removeRev_cons_some {n : Node} {k c}
    (h : alookup n.leaves k = some c) (r2 : String) (rest : List String) :
    Node.removeRev n (k :: r2 :: rest) =
      (if ((Node.removeRev c (r2 :: rest)).2).isOk then
        if (Node.removeRev c (r2 :: rest)).1.size = 0 then
          (Node.mk (aerase (ainsert n.leaves k
              (Node.removeRev c (r2 :: rest)).1) k)
            (n.length - 1) n.depth n.vid, (Node.removeRev c (r2 :: rest)).2)
        else
          (Node.mk (ainsert n.leaves k (Node.removeRev c (r2 :: rest)).1)
            (n.length - 1) n.depth n.vid, (Node.removeRev c (r2 :: rest)).2)
      else
        (Node.mk (ainsert n.leaves k (Node.removeRev c (r2 :: rest)).1)
          n.length n.depth n.vid, (Node.removeRev c (r2 :: rest)).2)) := by
  simp only [Node.removeRev, h]

/-- A node with no children accepts any nonempty insertion path. -/
theorem Node.addRev_empty_isOk (rest : List String) (k : String)
    (s : Service) (now : Nat) :
    ∀ n fresh heap, Node.leaves n = [] →
      ∃ lv, (Node.addRev n (k :: rest) s now fresh heap).2.2.2 = .ok lv := by
  induction rest generalizing k with
  | nil =>
    intro n fresh heap hn
    exact ⟨fresh, by simp [Node.addRev_single, hn]⟩
  | cons r2 rest' ih =>
    intro n fresh heap hn
    have hlook : alookup n.leaves k = none := by simp [hn]
    obtain ⟨lv, hlv⟩ := ih r2 (Node.mk [] 0 (n.depth + 1) fresh)
      (fresh + 1) (ainsert heap fresh (Service.zero, 0)) (by simp)
    exact ⟨lv, by rw [Node.addRev_cons_none hlook]; simpa using hlv⟩

/-- `node.add` is atomic on failure: a failed insertion returns the
receiver, the allocator and the heap unchanged. -/
theorem Node.addRev_err (rtree : List String) (s : Service) (now : Nat) :
    ∀ n fresh heap e, (Node.addRev n rtree s now fresh heap).2.2.2 = .error e →
      Node.addRev n rtree s now fresh heap = (n, fresh, heap, .error e) := by
  induction rtree with
  | nil =>
    intro n fresh heap e h
    simp only [Node.addRev_nil] at h ⊢
    cases h; rfl
  | cons k rest ih =>
    intro n fresh heap e h
    cases rest with
    | nil =>
      rw [Node.addRev_single] at h ⊢
      split at h <;> simp_all
    | cons r2 rest' =>
      rcases hl : alookup n.leaves k with _ | c
      · obtain ⟨lv, hlv⟩ := Node.addRev_empty_isOk rest' r2 s now
          (Node.mk [] 0 (n.depth + 1) fresh) (fresh + 1)
          (ainsert heap fresh (Service.zero, 0)) (by simp)
        rw [Node.addRev_cons_none hl] at h
        simp only at h
        rw [hlv] at h
        simp at h
      · rw [Node.addRev_cons_some hl] at h ⊢
        simp only at h
        have heq := ih c fresh heap e h
        rw [heq]
        simp only [Except.isOk, Except.toBool, Bool.false_eq_true, if_false]
        rw [ainsert_self_of_lookup hl, Node.eta n]

/-- `node.remove` is atomic on failure. -/
theorem Node.removeRev_err (rtree : List String) :
    ∀ n e, (Node.removeRev n rtree).2 = .error e →
      Node.removeRev n rtree = (n, .error e) := by
  induction rtree with
  | nil =>
    intro n e h
    simp only [Node.removeRev_nil] at h ⊢
    cases h; rfl
  | cons k rest ih =>
    intro n e h
    cases rest with
    | nil =>
      rw [Node.removeRev_single] at h ⊢
      split at h <;> simp_all
    | cons r2 rest' =>
      rcases hl : alookup n.leaves k with _ | c
      · rw [Node.removeRev_cons_none hl] at h ⊢
        cases h; rfl
      · rw [Node.removeRev_cons_some hl] at h ⊢
        rcases hres : (Node.removeRev c (r2 :: rest')).2 with e' | u
        · have heq := ih c e' hres
          rw [heq] at h ⊢
          simp only [Except.isOk, Except.toBool, Bool.false_eq_true,
            if_false] at h ⊢
          cases h
          rw [ainsert_self_of_lookup hl, Node.eta n]
        · split at h
          · split at h <;> simp [hres] at h
          · rw [hres] at h
            simp at h

/-! ## Registry-level failure atomicity -/

section FailureAtomicity

attribute [local irreducible] goSplit getRegistryKey goToLower goReplaceDotDash

theorem DefaultRegistry.Add_err (r : DefaultRegistry) (s : Service) (now : Nat)
    (e : RegErr) (h : (r.Add s now).2 = .error e) : (r.Add s now).1 = r := by
  unfold DefaultRegistry.Add at h ⊢
  simp only [Node.add] at h ⊢
  generalize hgs : goSplit (getRegistryKey s) = ls at h ⊢
  by_cases hl : (alookup r.nodes s.uuid).isSome
  · simp [hl]
  · simp only [hl, Bool.false_eq_true, if_false] at h ⊢
    rcases hres : (r.tree.addRev ls.reverse s now r.fresh r.heap).2.2.2
      with e' | lv
    · have heq := Node.addRev_err ls.reverse s now r.tree r.fresh r.heap e' hres
      rw [heq]
    · rw [hres] at h
      simp at h

theorem DefaultRegistry.Remove_err (r : DefaultRegistry) (s : Service)
    (e : RegErr) (h : (r.Remove s).2 = .error e) : (r.Remove s).1 = r := by
  unfold DefaultRegistry.Remove at h ⊢
  simp only [Node.remove] at h ⊢
  generalize hgs : goSplit (getRegistryKey s) = ls at h ⊢
  rcases hres : (r.tree.removeRev ls.reverse).2 with e' | u
  · have heq := Node.removeRev_err ls.reverse r.tree e' hres
    rw [heq]
  · rw [hres] at h
    simp at h

theorem DefaultRegistry.RemoveUUID_err (r : DefaultRegistry) (u : String)
    (e : RegErr) (h : (r.RemoveUUID u).2 = .error e) : (r.RemoveUUID u).1 = r := by
  simp only [DefaultRegistry.RemoveUUID] at h ⊢
  rcases hl : alookup r.nodes u with _ | v
  · rfl
  · rw [hl] at h
    simp only [] at h ⊢
    exact DefaultRegistry.Remove_err r _ e h

theorem DefaultRegistry.UpdateTTL_err (r : DefaultRegistry) (u : String)
    (ttl now : Nat) (e : RegErr) (h : (r.UpdateTTL u ttl now).2 = .error e) :
    (r.UpdateTTL u ttl now).1 = r := by
  simp only [DefaultRegistry.UpdateTTL] at h ⊢
  rcases hl : alookup r.nodes u with _ | v
  · rfl
  · rw [hl] at h
    simp at h

end FailureAtomicity

/-! ## Concrete fixtures used by witnesses and counterexamples -/

/-- A well-formed service record (dot-free fields). -/
def svcA : Service := ⟨"u1", "h", "r", "v", "n", "e", 30⟩

/-- A second well-formed service record. -/
def svcB : Service := ⟨"u2", "h2", "r", "v", "n", "e", 10⟩

/-- A registry holding exactly `svcA`. -/
def regA : DefaultRegistry := (DefaultRegistry.New.Add svcA 0).1

/-- **C2**: Every operation that returns an error leaves the registry state
exactly as it was before the call: a failed `Add`, `Remove`, `RemoveUUID` or
`UpdateTTL` changes nothing — no partial mutation (tree structure, ancestor
counters, identity index, node contents, allocator) is ever visible after a
failure. -/
theorem C2_error_atomicity
    (r : DefaultRegistry) (s : Service) (u : String) (ttl now : Nat)
    (e : RegErr) :
    ((r.Add s now).2 = .error e → (r.Add s now).1 = r) ∧
    ((r.Remove s).2 = .error e → (r.Remove s).1 = r) ∧
    ((r.RemoveUUID u).2 = .error e → (r.RemoveUUID u).1 = r) ∧
    ((r.UpdateTTL u ttl now).2 = .error e → (r.UpdateTTL u ttl now).1 = r) :=
  ⟨DefaultRegistry.Add_err r s now e, DefaultRegistry.Remove_err r s e,
   DefaultRegistry.RemoveUUID_err r u e,
   DefaultRegistry.UpdateTTL_err r u ttl now e⟩

/-- Witness for C2: concrete failing calls (duplicate `Add`, `Remove` of an
absent service, `RemoveUUID`/`UpdateTTL` of an unknown UUID) all leave the
one-service registry `regA` unchanged. -/
theorem C2_error_atomicity_witness :
    (regA.Add svcA 0).1 = regA ∧
    (regA.Remove svcB).1 = regA ∧
    (regA.RemoveUUID "zz").1 = regA ∧
    (regA.UpdateTTL "zz" 5 0).1 = regA :=
  ⟨(C2_error_atomicity regA svcA "zz" 5 0 .ErrExists).1 (by decide),
   (C2_error_atomicity regA svcB "zz" 5 0 .ErrNotExists).2.1 (by decide),
   (C2_error_atomicity regA svcA "zz" 5 0 .ErrNotExists).2.2.1 (by decide),
   (C2_error_atomicity regA svcA "zz" 5 0 .ErrNotExists).2.2.2 (by decide)⟩

/-! ## Path lookup (specification observer) -/

/-- Specification observer: follow a reversed label path down the tree and
return the node it reaches, if any.  (Not part of the Go source; used only to
state theorems about where leaves live.) -/
def Node.findRev (n : Node) (rtree : List String) : Option Node :=
  match rtree with
  | [] => some n
  | k :: rest =>
    match alookup n.leaves k with
    | none => none
    | some c => c.findRev rest

/-- Path lookup in source label order (most-significant first, traversed from
the last label as the tree operations do). -/
def Node.find (n : Node) (tree : List String) : Option Node :=
  n.findRev tree.reverse

@[simp] theorem Node.findRev_nil (n : Node) : n.findRev [] = some n := rfl

theorem Node.findRev_cons (n : Node) (k : String) (rest : List String) :
    n.findRev (k :: rest) =
      match alookup n.leaves k with
      | none => none
      | some c => c.findRev rest := rfl

/-- A successful `node.add` puts a fresh childless leaf holding `(s, now+ttl)`
at the requested path. -/
theorem Node.addRev_ok (rtree : List String) (s : Service) (now : Nat) :
    ∀ n fresh heap lv,
      (Node.addRev n rtree s now fresh heap).2.2.2 = .ok lv →
      ∃ m, Node.findRev (Node.addRev n rtree s now fresh heap).1 rtree = some m ∧
        m.vid = lv ∧ m.leaves = [] ∧
        heapVal (Node.addRev n rtree s now fresh heap).2.2.1 lv =
          (s, now + s.ttl) := by
  induction rtree with
  | nil =>
    intro n fresh heap lv h
    simp [Node.addRev_nil] at h
  | cons k rest ih =>
    intro n fresh heap lv h
    cases rest with
    | nil =>
      rw [Node.addRev_single] at h ⊢
      by_cases hl : (alookup n.leaves k).isSome
      · simp [hl] at h
      · simp only [hl, Bool.false_eq_true, if_false] at h ⊢
        injection h with h2
        subst h2
        refine ⟨Node.mk [] 0 (n.depth + 1) fresh, ?_, rfl, rfl, ?_⟩
        · simp [Node.findRev_cons]
        · simp [heapVal]
    | cons r2 rest' =>
      rcases hl : alookup n.leaves k with _ | c
      · rw [Node.addRev_cons_none hl] at h ⊢
        simp only at h ⊢
        obtain ⟨m, hfind, hvid, hleaves, hheap⟩ :=
          ih (Node.mk [] 0 (n.depth + 1) fresh) (fresh + 1)
            (ainsert heap fresh (Service.zero, 0)) lv h
        exact ⟨m, by simp [Node.findRev_cons, hfind], hvid, hleaves, hheap⟩
      · rw [Node.addRev_cons_some hl] at h ⊢
        simp only at h ⊢
        obtain ⟨m, hfind, hvid, hleaves, hheap⟩ := ih c fresh heap lv h
        exact ⟨m, by simp [Node.findRev_cons, hfind], hvid, hleaves, hheap⟩

section ClaimC4

attribute [local irreducible] goSplit getRegistryKey goToLower goReplaceDotDash

/-- **C4**: `Add` fails with `ErrExists` and changes nothing at all (in
particular `Len` is unchanged) when the UUID is already in the identity
index — the whole call returns `(r, ErrExists)` before any tree traversal;
when the UUID is new and the insertion succeeds, the encoded key's path holds
a fresh childless leaf storing `(s, now + TTL)` and the identity index maps
the UUID to that leaf. -/
theorem C4_add_uuid_check
    (r : DefaultRegistry) (s : Service) (now : Nat) :
    ((alookup r.nodes s.uuid).isSome →
      r.Add s now = (r, .error .ErrExists)) ∧
    (alookup r.nodes s.uuid = none → (r.Add s now).2 = .ok () →
      ∃ lv m,
        alookup (r.Add s now).1.nodes s.uuid = some lv ∧
        heapVal (r.Add s now).1.heap lv = (s, now + s.ttl) ∧
        Node.find (r.Add s now).1.tree (goSplit (getRegistryKey s)) = some m ∧
        m.vid = lv ∧ m.leaves = []) := by
  constructor
  · intro hl
    unfold DefaultRegistry.Add
    simp [hl]
  · intro hl hok
    unfold DefaultRegistry.Add at hok ⊢
    simp only [Node.add] at hok ⊢
    generalize hgs : goSplit (getRegistryKey s) = ls at hok ⊢
    simp only [hl, Option.isSome_none, Bool.false_eq_true, if_false] at hok ⊢
    rcases hres : (r.tree.addRev ls.reverse s now r.fresh r.heap).2.2.2
      with e' | lv
    · rw [hres] at hok
      simp at hok
    · obtain ⟨m, hfind, hvid, hleaves, hheap⟩ :=
        Node.addRev_ok ls.reverse s now r.tree r.fresh r.heap lv hres
      refine ⟨lv, m, ?_, ?_, ?_, hvid, hleaves⟩
      · simp only []
        rw [hheap]
        simp
      · simpa using hheap
      · simpa [Node.find] using hfind

end ClaimC4

/-- Witness for C4: the duplicate UUID `u1` is rejected with the registry
returned untouched, and a fresh `Add` on the empty registry records the leaf
under its UUID. -/
theorem C4_add_uuid_check_witness :
    regA.Add svcA 0 = (regA, .error .ErrExists) ∧
    (∃ lv m,
      alookup (DefaultRegistry.New.Add svcA 0).1.nodes svcA.uuid = some lv ∧
      heapVal (DefaultRegistry.New.Add svcA 0).1.heap lv = (svcA, 0 + svcA.ttl) ∧
      Node.find (DefaultRegistry.New.Add svcA 0).1.tree
        (goSplit (getRegistryKey svcA)) = some m ∧
      m.vid = lv ∧ m.leaves = []) :=
  ⟨(C4_add_uuid_check regA svcA 0).1 (by decide),
   (C4_add_uuid_check DefaultRegistry.New svcA 0).2 (by decide) (by decide)⟩

/-- **C8**: `UpdateTTL` on a registered UUID succeeds, overwrites only the
stored TTL and sets the absolute expiration to `now + ttl`, without touching
the tree, the identity index, the allocator, or any other node's fields (the
leaf is neither re-keyed nor moved); on an unknown UUID it returns
`ErrNotExists` and changes nothing.  `GetExpired` returns exactly the UUIDs
of index entries whose expiration is strictly before `now`, and, being a pure
function of the state, mutates nothing. -/
theorem C8_updateTTL_getExpired
    (r : DefaultRegistry) (u : String) (ttl now : Nat) :
    (alookup r.nodes u = none →
      r.UpdateTTL u ttl now = (r, .error .ErrNotExists)) ∧
    (∀ v, alookup r.nodes u = some v →
      (r.UpdateTTL u ttl now).2 = .ok () ∧
      (r.UpdateTTL u ttl now).1.tree = r.tree ∧
      (r.UpdateTTL u ttl now).1.nodes = r.nodes ∧
      (r.UpdateTTL u ttl now).1.fresh = r.fresh ∧
      heapVal (r.UpdateTTL u ttl now).1.heap v =
        ({ (heapVal r.heap v).1 with ttl := ttl }, now + ttl) ∧
      (∀ w, w ≠ v →
        alookup (r.UpdateTTL u ttl now).1.heap w = alookup r.heap w)) ∧
    (∀ x, x ∈ r.GetExpired now ↔
      ∃ p ∈ r.nodes, (heapVal r.heap p.2).2 < now ∧
        (heapVal r.heap p.2).1.uuid = x) := by
  refine ⟨?_, ?_, ?_⟩
  · intro hl
    unfold DefaultRegistry.UpdateTTL
    rw [hl]
  · intro v hl
    unfold DefaultRegistry.UpdateTTL
    rw [hl]
    refine ⟨rfl, rfl, rfl, rfl, ?_, ?_⟩
    · simp [heapVal, getExpirationTime]
    · intro w hw
      exact alookup_ainsert_ne _ _ hw
  · intro x
    unfold DefaultRegistry.GetExpired
    simp only [List.mem_map, List.mem_filter]
    constructor
    · rintro ⟨p, ⟨hp, hexp⟩, rfl⟩
      exact ⟨p, hp, by simpa using hexp, rfl⟩
    · rintro ⟨p, hp, hexp, rfl⟩
      exact ⟨p, ⟨hp, by simpa using hexp⟩, rfl⟩

/-- Witness for C8: on the one-service registry, `UpdateTTL "u1" 100` at
time 50 succeeds and reschedules expiry to 150, an unknown UUID is rejected
unchanged, and `GetExpired` at time 31 reports exactly `u1` (expiry 30). -/
theorem C8_updateTTL_getExpired_witness :
    regA.UpdateTTL "zz" 7 3 = (regA, .error .ErrNotExists) ∧
    heapVal (regA.UpdateTTL "u1" 100 50).1.heap 6 =
      ({ svcA with ttl := 100 }, 150) ∧
    ("u1" ∈ regA.GetExpired 31 ↔
      ∃ p ∈ regA.nodes, (heapVal regA.heap p.2).2 < 31 ∧
        (heapVal regA.heap p.2).1.uuid = "u1") :=
  ⟨(C8_updateTTL_getExpired regA "zz" 7 3).1 (by decide),
   ((C8_updateTTL_getExpired regA "u1" 100 50).2.1 6 (by decide)).2.2.2.2.1,
   (C8_updateTTL_getExpired regA "u1" 0 31).2.2 "u1"⟩

/-- **C7**: the key encoder is a pure total function: the six fields joined
by `'.'` in the fixed order UUID, Host, Region, Version, Name, Environment
and then lower-cased, where every `'.'` inside Version has first been
replaced by `'-'`; character-wise, every field is lower-cased independently
(`'.'` is fixed by lower-casing) and no other transformation or validation
happens. -/
theorem C7_key_encoding (s : Service) :
    getRegistryKey s =
      (String.intercalate "." [s.uuid, s.host, s.region,
        goReplaceDotDash s.version, s.name, s.environment]).toLower ∧
    (getRegistryKey s).data =
      s.uuid.data.map Char.toLower ++ '.' ::
      s.host.data.map Char.toLower ++ '.' ::
      s.region.data.map Char.toLower ++ '.' ::
      (s.version.data.map fun c => if c = '.' then '-' else c).map
        Char.toLower ++ '.' ::
      s.name.data.map Char.toLower ++ '.' ::
      s.environment.data.map Char.toLower := by
  constructor
  · rw [← goToLower_eq_toLower]
    rfl
  · simp [getRegistryKey, goToLower, goReplaceDotDash, String.data_append,
      List.map_append]

/-! ## `node.get` characterization -/

theorem Node.getRev_wild_single (n : Node) (heap : Heap) {k : String}
    (hk : k = "any" ∨ k = "all") :
    n.getRev [k] heap =
      if n.leaves.isEmpty then .error .ErrNotExists
      else .ok (n.leaves.map fun p => (heapVal heap p.2.vid).1) := by
  rcases hk with rfl | rfl <;> simp [Node.getRev]

theorem Node.getRev_exact_single (n : Node) (heap : Heap) {k : String}
    (h1 : k ≠ "any") (h2 : k ≠ "all") :
    n.getRev [k] heap =
      match alookup n.leaves k with
      | none => .error .ErrNotExists
      | some c => .ok [(heapVal heap c.vid).1] := by
  simp [Node.getRev, h1, h2]

theorem Node.getRev_wild_cons (n : Node) (heap : Heap) {k : String}
    (hk : k = "any" ∨ k = "all") (r2 : String) (rest : List String) :
    n.getRev (k :: r2 :: rest) heap =
      if n.leaves.isEmpty then .error .ErrNotExists
      else
        if (n.leaves.filterMap fun p =>
            match p.2.getRev (r2 :: rest) heap with
            | .ok ss => some ss
            | .error _ => none) = [] then .error .ErrNotExists
        else .ok (n.leaves.filterMap fun p =>
            match p.2.getRev (r2 :: rest) heap with
            | .ok ss => some ss
            | .error _ => none).flatten := by
  rcases hk with rfl | rfl <;> simp [Node.getRev]

theorem Node.getRev_exact_cons (n : Node) (heap : Heap) {k : String}
    (h1 : k ≠ "any") (h2 : k ≠ "all") (r2 : String) (rest : List String) :
    n.getRev (k :: r2 :: rest) heap =
      match alookup n.leaves k with
      | none => .error .ErrNotExists
      | some c => c.getRev (r2 :: rest) heap := by
  simp [Node.getRev, h1, h2]

/-- **C3**: a wildcard label (`"any"`/`"all"`) at a level of the lookup fans
out over all children there: the lookup succeeds iff at least one child
branch succeeds, and then returns the union (concatenation) of the successful
branches' results; it fails with `ErrNotExists` when the level has no
children or every branch fails; at the innermost level a wildcard returns all
children's values; and a non-wildcard label matching no child fails with
`ErrNotExists`.  Stated on the reversed-path worker `getRev`, which processes
the query labels outermost (last) first, so "a level" is any `k` heading the
remaining reversed labels; `Node.get tree = Node.getRev tree.reverse`
(definitionally) transports every statement to six-label source-order
queries. -/
theorem C3_get_wildcard (n : Node) (heap : Heap) (k r2 : String)
    (rest : List String) (hk : k = "any" ∨ k = "all") :
    ((∃ ss, n.getRev (k :: r2 :: rest) heap = .ok ss) ↔
      ∃ p ∈ n.leaves, ∃ cs, p.2.getRev (r2 :: rest) heap = .ok cs) ∧
    (∀ ss, n.getRev (k :: r2 :: rest) heap = .ok ss →
      ∀ x, x ∈ ss ↔ ∃ p ∈ n.leaves, ∃ cs,
        p.2.getRev (r2 :: rest) heap = .ok cs ∧ x ∈ cs) ∧
    ((¬ ∃ p ∈ n.leaves, ∃ cs, p.2.getRev (r2 :: rest) heap = .ok cs) →
      n.getRev (k :: r2 :: rest) heap = .error .ErrNotExists) ∧
    (n.leaves = [] → n.getRev [k] heap = .error .ErrNotExists) ∧
    (n.leaves ≠ [] →
      n.getRev [k] heap =
        .ok (n.leaves.map fun p => (heapVal heap p.2.vid).1)) ∧
    (∀ k', k' ≠ "any" → k' ≠ "all" → alookup n.leaves k' = none →
      n.getRev (k' :: r2 :: rest) heap = .error .ErrNotExists ∧
      n.getRev [k'] heap = .error .ErrNotExists) := by
  have hfm : ∀ p : String × Node,
      (match Node.getRev p.2 (r2 :: rest) heap with
        | .ok ss => some ss
        | .error _ => none) = none ↔
      ∀ cs, Node.getRev p.2 (r2 :: rest) heap ≠ .ok cs := by
    intro p
    rcases hg : Node.getRev p.2 (r2 :: rest) heap with e | ss <;> simp
  refine ⟨?_, ?_, ?_, ?_, ?_, ?_⟩
  · rw [Node.getRev_wild_cons n heap hk]
    by_cases he : n.leaves.isEmpty
    · rw [if_pos he]
      rw [List.isEmpty_iff] at he
      simp [he]
    · rw [if_neg he]
      rw [List.isEmpty_iff] at he
      split
      · rename_i hnil
        rw [List.filterMap_eq_nil_iff] at hnil
        constructor
        · rintro ⟨ss, hss⟩; simp at hss
        · rintro ⟨p, hp, cs, hcs⟩
          have := (hfm p).1 (hnil p hp)
          exact absurd hcs (this cs)
      · rename_i hnil
        constructor
        · rintro -
          rcases List.exists_mem_of_ne_nil _ hnil with ⟨ss, hss⟩
          obtain ⟨p, hp, hps⟩ := List.mem_filterMap.1 hss
          refine ⟨p, hp, ss, ?_⟩
          revert hps
          rcases hg : Node.getRev p.2 (r2 :: rest) heap with e | ss' <;> simp
        · rintro -; exact ⟨_, rfl⟩
  · intro ss hss x
    rw [Node.getRev_wild_cons n heap hk] at hss
    by_cases he : n.leaves.isEmpty
    · rw [if_pos he] at hss; simp at hss
    · rw [if_neg he] at hss
      split at hss
      · simp at hss
      · injection hss with hss
        subst hss
        rw [List.mem_flatten]
        constructor
        · rintro ⟨l, hl, hx⟩
          obtain ⟨p, hp, hps⟩ := List.mem_filterMap.1 hl
          refine ⟨p, hp, l, ?_, hx⟩
          revert hps
          rcases hg : Node.getRev p.2 (r2 :: rest) heap with e | ss' <;> simp
        · rintro ⟨p, hp, cs, hcs, hx⟩
          refine ⟨cs, List.mem_filterMap.2 ⟨p, hp, ?_⟩, hx⟩
          rw [hcs]
  · intro hno
    rw [Node.getRev_wild_cons n heap hk]
    by_cases he : n.leaves.isEmpty
    · rw [if_pos he]
    · rw [if_neg he]
      rw [if_pos]
      rw [List.filterMap_eq_nil_iff]
      intro p hp
      refine (hfm p).2 fun cs hcs => hno ⟨p, hp, cs, hcs⟩
  · intro he
    rw [Node.getRev_wild_single n heap hk, if_pos (by simp [he])]
  · intro he
    rw [Node.getRev_wild_single n heap hk,
      if_neg (by simpa [List.isEmpty_iff] using he)]
  · intro k' h1 h2 hl
    refine ⟨?_, ?_⟩
    · rw [Node.getRev_exact_cons n heap h1 h2, hl]
    · rw [Node.getRev_exact_single n heap h1 h2, hl]

/-- Witness for C3: instantiated at the one-service tree with the wildcard
`"any"` and a residual query, discharging every hypothesis concretely. -/
theorem C3_get_wildcard_witness :
    (∃ ss, regA.tree.getRev ["any", "n", "v", "r", "h", "u1"] regA.heap =
        .ok ss) ↔
      ∃ p ∈ regA.tree.leaves, ∃ cs,
        p.2.getRev ["n", "v", "r", "h", "u1"] regA.heap = .ok cs :=
  (C3_get_wildcard regA.tree regA.heap "any" "n" ["v", "r", "h", "u1"]
    (Or.inl rfl)).1

/-- **C6**: querying a domain of fewer than six (dot-stripped) labels is the
same as querying the six-label domain obtained by left-padding the label
list with `"any"`: `Get` strips one optional trailing dot, splits, pads to
six labels, and delegates — so any domain `d2` whose stripped label list is
exactly the `"any"`-padding of `d1`'s yields the identical result (same list,
same error). -/
theorem C6_short_query_any_padding (r : DefaultRegistry) (d1 d2 : String)
    (h1 : (goSplit (stripTrailingDot d1)).length < 6)
    (h2 : goSplit (stripTrailingDot d2) =
      List.replicate (6 - (goSplit (stripTrailingDot d1)).length) "any" ++
        goSplit (stripTrailingDot d1)) :
    r.Get d1 = r.Get d2 := by
  simp only [DefaultRegistry.Get]
  rw [h2]
  have hlen : (List.replicate (6 - (goSplit (stripTrailingDot d1)).length)
      "any" ++ goSplit (stripTrailingDot d1)).length = 6 := by
    simp only [List.length_append, List.length_replicate]
    omega
  rw [if_pos h1, if_neg (by omega : ¬ (List.replicate
    (6 - (goSplit (stripTrailingDot d1)).length) "any" ++
      goSplit (stripTrailingDot d1)).length < 6)]

/-- Witness for C6: the spec's own example — `Get "checkout.prod"` coincides
with `Get "any.any.any.any.checkout.prod"` (here on the one-service
registry `regA`). -/
theorem C6_short_query_any_padding_witness :
    regA.Get "checkout.prod" = regA.Get "any.any.any.any.checkout.prod" :=
  C6_short_query_any_padding regA "checkout.prod"
    "any.any.any.any.checkout.prod" (by decide) (by decide)

/-! ## Case sensitivity of lookups -/

/-- An ASCII uppercase character (`'A'`–`'Z'`, code points 65–90). -/
def upperChar (c : Char) : Bool := 65 ≤ c.toNat && c.toNat ≤ 90

/-- Does the string contain an ASCII uppercase character? -/
def hasUpper (s : String) : Bool := s.data.any upperChar

theorem upperChar_toLower (c : Char) : upperChar (Char.toLower c) = false := by
  unfold Char.toLower
  simp only []
  by_cases h : c.toNat ≥ 65 ∧ c.toNat ≤ 90
  · rw [if_pos h]
    have hval : Nat.isValidChar (c.toNat + 32) := Or.inl (by omega)
    have hto : (Char.ofNat (c.toNat + 32)).toNat = c.toNat + 32 := by
      simp only [Char.ofNat, hval, dif_pos, Char.ofNatAux]
      rfl
    simp [upperChar, hto]
    omega
  · rw [if_neg h]
    simp [upperChar]
    intro hc
    omega

theorem toLower_eq_dot_iff (c : Char) : Char.toLower c = '.' ↔ c = '.' := by
  unfold Char.toLower
  simp only []
  by_cases h : c.toNat ≥ 65 ∧ c.toNat ≤ 90
  · rw [if_pos h]
    have hval : Nat.isValidChar (c.toNat + 32) := Or.inl (by omega)
    have hto : (Char.ofNat (c.toNat + 32)).toNat = c.toNat + 32 := by
      simp only [Char.ofNat, hval, dif_pos, Char.ofNatAux]
      rfl
    constructor
    · intro he
      have hdot : (Char.ofNat (c.toNat + 32)).toNat = ('.' : Char).toNat := by
        rw [he]
      rw [hto] at hdot
      have h46 : ('.' : Char).toNat = 46 := rfl
      omega
    · intro he
      subst he
      simp at h
  · rw [if_neg h]

theorem mem_ainsert [DecidableEq κ] {l : List (κ × α)} {k v}
    {p : κ × α} (h : p ∈ ainsert l k v) : p = (k, v) ∨ p ∈ l := by
  induction l with
  | nil => simpa [ainsert] using h
  | cons q t ih =>
    obtain ⟨k₀, v₀⟩ := q
    by_cases h0 : k = k₀
    · subst h0
      simp only [ainsert, if_pos rfl] at h
      rcases List.mem_cons.1 h with rfl | hm
      · exact Or.inl rfl
      · exact Or.inr (List.mem_cons_of_mem _ hm)
    · simp only [ainsert, if_neg h0] at h
      rcases List.mem_cons.1 h with rfl | hm
      · exact Or.inr (List.mem_cons_self _ _)
      · rcases ih hm with h' | h'
        · exact Or.inl h'
        · exact Or.inr (List.mem_cons_of_mem _ h')

/-- `splitOnP` commutes with a character map that preserves the separator
predicate in both directions. -/
theorem splitOnP_map (f : Char → Char) (p : Char → Bool)
    (hp : ∀ c, p (f c) = p c) (l : List Char) :
    List.splitOnP p (l.map f) = (List.splitOnP p l).map (List.map f) := by
  induction l with
  | nil => simp
  | cons c t ih =>
    simp only [List.map_cons, List.splitOnP_cons, hp c]
    by_cases hc : p c
    · simp [hc, ih]
    · simp only [hc, Bool.false_eq_true, if_false, ih]
      rcases hsp : List.splitOnP p t with _ | ⟨hd, tl⟩
      · exact absurd hsp (List.splitOnP_ne_nil p t)
      · simp [List.modifyHead]

/-- Every label produced by splitting an encoded registry key is free of
ASCII uppercase characters (keys are lower-cased before splitting). -/
theorem goSplit_getRegistryKey_hasUpper (s : Service) :
    ∀ ℓ ∈ goSplit (getRegistryKey s), hasUpper ℓ = false := by
  intro ℓ hℓ
  unfold getRegistryKey goToLower goSplit at hℓ
  simp only [] at hℓ
  rw [splitOnP_map Char.toLower (fun c => c = '.')
    (fun c => by simp [toLower_eq_dot_iff]) _] at hℓ
  rw [List.map_map] at hℓ
  obtain ⟨piece, hpiece, rfl⟩ := List.mem_map.1 hℓ
  simp only [Function.comp]
  unfold hasUpper
  simp only [List.any_eq_false]
  intro c hc
  obtain ⟨c', hc', rfl⟩ := List.mem_map.1 hc
  simp [upperChar_toLower c']

/-- All edge labels of the tree (recursively) are free of ASCII uppercase
characters. -/
inductive LowerTree : Node → Prop where
  | intro : ∀ (ls : List (String × Node)) (len : Int) (d v : Nat),
      (∀ p ∈ ls, hasUpper p.1 = false) →
      (∀ p ∈ ls, LowerTree p.2) →
      LowerTree (Node.mk ls len d v)

theorem LowerTree.leaves_spec {n : Node} (h : LowerTree n) :
    ∀ p ∈ n.leaves, hasUpper p.1 = false ∧ LowerTree p.2 := by
  cases h with
  | intro ls len d v hup hlow => exact fun p hp => ⟨hup p hp, hlow p hp⟩

/-- On a lower-cased tree, any lookup whose remaining labels contain an ASCII
uppercase character fails: such a label is not a wildcard and cannot equal
any stored (lower-cased) edge label. -/
theorem Node.getRev_hasUpper (rtree : List String) :
    ∀ n heap, LowerTree n → (∃ ℓ ∈ rtree, hasUpper ℓ = true) →
      Node.getRev n rtree heap = .error .ErrNotExists := by
  have hlook : ∀ (n : Node), LowerTree n → ∀ ℓ, hasUpper ℓ = true →
      alookup n.leaves ℓ = none := by
    intro n hn ℓ hℓ
    rcases hl : alookup n.leaves ℓ with _ | c
    · rfl
    · have := (hn.leaves_spec _ (mem_of_alookup_eq_some hl)).1
      rw [hℓ] at this
      cases this
  have hwild : ∀ ℓ, hasUpper ℓ = true → ℓ ≠ "any" ∧ ℓ ≠ "all" := by
    intro ℓ hℓ
    constructor <;> rintro rfl <;> simp [hasUpper, upperChar] at hℓ
  induction rtree with
  | nil =>
    rintro n heap hn ⟨ℓ, hm, _⟩
    simp at hm
  | cons k rest ih =>
    rintro n heap hn ⟨ℓ, hm, hu⟩
    cases rest with
    | nil =>
      simp only [List.mem_singleton] at hm
      subst hm
      obtain ⟨h1, h2⟩ := hwild ℓ hu
      rw [Node.getRev_exact_single n heap h1 h2, hlook n hn ℓ hu]
    | cons r2 rest' =>
      rcases List.mem_cons.1 hm with rfl | hm'
      · obtain ⟨h1, h2⟩ := hwild ℓ hu
        rw [Node.getRev_exact_cons n heap h1 h2, hlook n hn ℓ hu]
      · by_cases hk : k = "any" ∨ k = "all"
        · rw [Node.getRev_wild_cons n heap hk]
          by_cases he : n.leaves.isEmpty
          · rw [if_pos he]
          · rw [if_neg he, if_pos]
            rw [List.filterMap_eq_nil_iff]
            intro p hp
            rw [ih p.2 heap (hn.leaves_spec p hp).2 ⟨ℓ, hm', hu⟩]
        · push_neg at hk
          rw [Node.getRev_exact_cons n heap hk.1 hk.2]
          rcases hl : alookup n.leaves k with _ | c
          · rfl
          · exact ih c heap
              (hn.leaves_spec _ (mem_of_alookup_eq_some hl)).2 ⟨ℓ, hm', hu⟩

/-- `node.add` keeps the tree lower-cased when the inserted path is. -/
theorem Node.addRev_lowerTree (rtree : List String) (s : Service) (now : Nat) :
    ∀ n fresh heap, LowerTree n → (∀ ℓ ∈ rtree, hasUpper ℓ = false) →
      LowerTree (Node.addRev n rtree s now fresh heap).1 := by
  induction rtree with
  | nil => intro n fresh heap hn _; exact hn
  | cons k rest ih =>
    intro n fresh heap hn hls
    cases rest with
    | nil =>
      rw [Node.addRev_single]
      by_cases hl : (alookup n.leaves k).isSome
      · simpa [hl] using hn
      · simp only [hl, Bool.false_eq_true, if_false]
        obtain ⟨ls, len, d, v⟩ := n
        refine LowerTree.intro _ _ _ _ ?_ ?_ <;>
          intro p hp <;> rcases mem_ainsert hp with rfl | hp'
        · exact hls k (by simp)
        · exact (hn.leaves_spec p hp').1
        · exact LowerTree.intro _ _ _ _ (by simp) (by simp)
        · exact (hn.leaves_spec p hp').2
    | cons r2 rest' =>
      have hrest : ∀ ℓ ∈ r2 :: rest', hasUpper ℓ = false :=
        fun ℓ h => hls ℓ (List.mem_cons_of_mem _ h)
      rcases hl : alookup n.leaves k with _ | c
      · rw [Node.addRev_cons_none hl]
        have hc : LowerTree ((Node.addRev (Node.mk [] 0 (n.depth + 1) fresh)
            (r2 :: rest') s now (fresh + 1)
            (ainsert heap fresh (Service.zero, 0))).1) :=
          ih _ _ _ (LowerTree.intro _ _ _ _ (by simp) (by simp)) hrest
        obtain ⟨ls, len, d, v⟩ := n
        refine LowerTree.intro _ _ _ _ ?_ ?_ <;>
          intro p hp <;> rcases mem_ainsert hp with rfl | hp'
        · exact hls k (by simp)
        · exact (hn.leaves_spec p hp').1
        · exact hc
        · exact (hn.leaves_spec p hp').2
      · rw [Node.addRev_cons_some hl]
        have hc : LowerTree ((Node.addRev c (r2 :: rest') s now fresh heap).1) :=
          ih _ _ _ (hn.leaves_spec _ (mem_of_alookup_eq_some hl)).2 hrest
        obtain ⟨ls, len, d, v⟩ := n
        refine LowerTree.intro _ _ _ _ ?_ ?_ <;>
          intro p hp <;> rcases mem_ainsert hp with rfl | hp'
        · exact hls k (by simp)
        · exact (hn.leaves_spec p hp').1
        · exact hc
        · exact (hn.leaves_spec p hp').2

/-- Registries reachable from `New` using `Add` alone (the read-only
operations `Get`/`GetUUID`/`GetExpired`/`Len` return values without
producing a new state, so "populated only by `Add`" is exactly this). -/
inductive AddReach : DefaultRegistry → Prop where
  | new : AddReach DefaultRegistry.New
  | add : ∀ {r} (s : Service) (now : Nat),
      AddReach r → AddReach (r.Add s now).1

section AddReachLower

attribute [local irreducible] goSplit getRegistryKey goToLower goReplaceDotDash

theorem AddReach.lowerTree {r : DefaultRegistry} (h : AddReach r) :
    LowerTree r.tree := by
  induction h with
  | new => exact LowerTree.intro _ _ _ _ (by simp) (by simp)
  | add s now hr ih =>
    rename_i r
    unfold DefaultRegistry.Add
    by_cases hl : (alookup r.nodes s.uuid).isSome
    · simpa [hl]
    · simp only [hl, Bool.false_eq_true, if_false, Node.add]
      have := Node.addRev_lowerTree (goSplit (getRegistryKey s)).reverse s now
        r.tree r.fresh r.heap ih
        (fun ℓ hm => goSplit_getRegistryKey_hasUpper s ℓ (by
          rwa [List.mem_reverse] at hm))
      rcases hres : (r.tree.addRev (goSplit (getRegistryKey s)).reverse s now
          r.fresh r.heap).2.2.2 with e' | lv <;>
        simp only [hres] at this ⊢ <;> exact this

end AddReachLower

/-- **C10**: `Get` performs no case normalization: since `Add` lower-cases
keys before storing, every stored edge label is free of ASCII uppercase
characters, and a query label containing an uppercase character is neither a
wildcard nor equal to any stored label — so on any registry populated only
by `Add`, a query one of whose (dot-stripped) labels contains an ASCII
uppercase character fails with `ErrNotExists`, even when a case-insensitive
match exists. -/
theorem C10_get_case_sensitive (r : DefaultRegistry) (hr : AddReach r)
    (domain : String)
    (hup : ∃ ℓ ∈ goSplit (stripTrailingDot domain), hasUpper ℓ = true) :
    r.Get domain = .error .ErrNotExists := by
  obtain ⟨ℓ, hm, hu⟩ := hup
  simp only [DefaultRegistry.Get, Node.get]
  apply Node.getRev_hasUpper _ _ _ hr.lowerTree
  refine ⟨ℓ, ?_, hu⟩
  rw [List.mem_reverse]
  split
  · exact List.mem_append_right _ hm
  · exact hm

/-- Witness for C10: with `svcA` registered under the lower-cased key
`u1.h.r.v.n.e`, the query `u1.H.r.v.n.e` fails although its all-lowercase
variant succeeds and returns `svcA`. -/
theorem C10_get_case_sensitive_witness :
    regA.Get "u1.H.r.v.n.e" = .error .ErrNotExists ∧
    regA.Get "u1.h.r.v.n.e" = .ok [svcA] :=
  ⟨C10_get_case_sensitive regA (AddReach.add svcA 0 AddReach.new)
    "u1.H.r.v.n.e" ⟨"H", by decide, by decide⟩,
   by decide⟩

/-! ## Depth-indexed tree invariants

The tree is uniform when every inserted path has exactly six labels (the
spec's trust assumption: dot-free field values).  `r` counts the remaining
levels down to the leaves: the root is at `r = 6`, leaves at `r = 0`. -/

/-- Number of leaves (depth-`r` descendants) beneath a node. -/
def numLeaves : Nat → Node → Nat
  | 0, _ => 1
  | r + 1, n => (n.leaves.map fun p => numLeaves r p.2).sum

/-- The ids of the leaves (depth-`r` descendants) beneath a node, in child
order. -/
def leafVids : Nat → Node → List Nat
  | 0, n => [n.vid]
  | r + 1, n => (n.leaves.map fun p => leafVids r p.2).flatten

/-- The structural invariant of a uniform-depth tree: at `r = 0` a node is a
childless leaf with `length = 0`; above, `length` equals the number of leaves
beneath, edge labels are distinct (it is a map), and every child subtree
satisfies the invariant and is nonempty (pruning). -/
def treeInv : Nat → Node → Prop
  | 0, n => n.leaves = [] ∧ n.length = 0
  | r + 1, n =>
    n.length = (numLeaves (r + 1) n : Int) ∧
    (n.leaves.map Prod.fst).Nodup ∧
    (∀ p ∈ n.leaves, treeInv r p.2 ∧ 1 ≤ numLeaves r p.2)

/-- No internal node (strictly above the leaves) is childless. -/
def noEmptyInternal : Nat → Node → Prop
  | 0, _ => True
  | r + 1, n => ∀ p ∈ n.leaves, (1 ≤ r → p.2.leaves ≠ []) ∧
      noEmptyInternal r p.2

/-- The encoded key of the service splits into exactly six labels, i.e. the
fields are dot-free as the spec assumes of callers (`Version` is sanitized by
the encoder itself). -/
def sixKey (s : Service) : Prop := (goSplit (getRegistryKey s)).length = 6

theorem getRegistryKey_ttl (s : Service) (t : Nat) :
    getRegistryKey { s with ttl := t } = getRegistryKey s := rfl

theorem treeInv_noEmptyInternal : ∀ (r : Nat) (n : Node),
    treeInv r n → noEmptyInternal r n := by
  intro r
  induction r with
  | zero => intro n _; trivial
  | succ r ih =>
    intro n hn
    obtain ⟨hlen, hnd, hch⟩ := hn
    intro p hp
    refine ⟨?_, ih p.2 (hch p hp).1⟩
    intro hr hnil
    have h1 := (hch p hp).2
    rcases r with _ | r'
    · omega
    · rw [show numLeaves (r' + 1) p.2 =
        ((p.2.leaves.map fun q => numLeaves r' q.2).sum) from rfl, hnil] at h1
      simp at h1

theorem leafVids_length : ∀ (r : Nat) (n : Node),
    treeInv r n → (leafVids r n).length = numLeaves r n := by
  intro r
  induction r with
  | zero => intro n _; rfl
  | succ r ih =>
    intro n hn
    show ((n.leaves.map fun p => leafVids r p.2).flatten).length =
      (n.leaves.map fun p => numLeaves r p.2).sum
    rw [List.length_flatten, List.map_map]
    congr 1
    refine List.map_congr_left ?_
    intro p hp
    exact ih p.2 (hn.2.2 p hp).1

theorem numLeaves_zero_leaves : ∀ (r : Nat) (n : Node), treeInv (r + 1) n →
    numLeaves (r + 1) n = 0 → n.leaves = [] := by
  intro r n hn h0
  rcases hl : n.leaves with _ | ⟨p, t⟩
  · rfl
  · exfalso
    have := (hn.2.2 p (by rw [hl]; exact List.mem_cons_self _ _)).2
    have hsum : (n.leaves.map fun p => numLeaves r p.2).sum = 0 := h0
    rw [hl] at hsum
    simp only [List.map_cons, List.sum_cons] at hsum
    omega

/-! ## Decomposition of map operations around a hit key -/

theorem alookup_decomp [DecidableEq κ] {l : List (κ × α)} {k : κ} {c : α}
    (h : alookup l k = some c) :
    ∃ l1 l2, l = l1 ++ (k, c) :: l2 ∧ k ∉ l1.map Prod.fst ∧
      (∀ v, ainsert l k v = l1 ++ (k, v) :: l2) ∧
      aerase l k = l1 ++ l2 := by
  induction l with
  | nil => simp [alookup] at h
  | cons q t ih =>
    obtain ⟨k₀, v₀⟩ := q
    by_cases h0 : k = k₀
    · subst h0
      rw [alookup_cons, if_pos rfl] at h
      cases h
      exact ⟨[], t, rfl, by simp, fun v => by simp [ainsert],
        by simp [aerase]⟩
    · rw [alookup_cons, if_neg h0] at h
      obtain ⟨l1, l2, hl, hk, hins, hdel⟩ := ih h
      refine ⟨(k₀, v₀) :: l1, l2, by rw [hl]; rfl, ?_,
        fun v => by simp [ainsert, h0, hins v], by simp [aerase, h0, hdel]⟩
      simp only [List.map_cons, List.mem_cons]
      rintro (rfl | hm)
      · exact h0 rfl
      · exact hk hm

theorem ainsert_append_of_none [DecidableEq κ] {l : List (κ × α)} {k : κ}
    (h : alookup l k = none) (v : α) : ainsert l k v = l ++ [(k, v)] := by
  induction l with
  | nil => simp [ainsert]
  | cons q t ih =>
    obtain ⟨k₀, v₀⟩ := q
    by_cases h0 : k = k₀
    · subst h0; simp [alookup_cons] at h
    · rw [alookup_cons, if_neg h0] at h
      simp [ainsert, h0, ih h]

/-- In an invariant-satisfying empty-count subtree every full-depth lookup
fails. -/
theorem findRev_of_numLeaves_zero : ∀ (r : Nat) (n : Node)
    (rt : List String), treeInv r n → 1 ≤ r → numLeaves r n = 0 →
    rt.length = r → Node.findRev n rt = none := by
  intro r n rt hn hr h0 hlen
  rcases r with _ | r'
  · omega
  · have hl := numLeaves_zero_leaves r' n hn h0
    rcases rt with _ | ⟨k, rest⟩
    · simp at hlen
    · rw [Node.findRev_cons, hl]
      simp [alookup]

/-- A successful insertion happens only at a previously absent path. -/
theorem Node.addRev_ok_find_none (rtree : List String) (s : Service)
    (now : Nat) : ∀ n fresh heap lv,
    (Node.addRev n rtree s now fresh heap).2.2.2 = .ok lv →
    Node.findRev n rtree = none := by
  induction rtree with
  | nil => intro n fresh heap lv h; simp [Node.addRev_nil] at h
  | cons k rest ih =>
    intro n fresh heap lv h
    cases rest with
    | nil =>
      rw [Node.addRev_single] at h
      by_cases hl : (alookup n.leaves k).isSome
      · simp [hl] at h
      · rw [Node.findRev_cons]
        rcases hlk : alookup n.leaves k with _ | c
        · rfl
        · rw [hlk] at hl; simp at hl
    | cons r2 rest' =>
      rcases hl : alookup n.leaves k with _ | c
      · rw [Node.findRev_cons, hl]
      · rw [Node.addRev_cons_some hl] at h
        simp only at h
        rw [Node.findRev_cons, hl]
        exact ih c fresh heap lv h

/-- `node.remove` succeeds exactly when the full path is present. -/
theorem Node.removeRev_status (k : String) (rest : List String) :
    ∀ n, ((Node.removeRev n (k :: rest)).2 = .ok ()) ↔
      (Node.findRev n (k :: rest)).isSome := by
  induction rest generalizing k with
  | nil =>
    intro n
    rw [Node.removeRev_single, Node.findRev_cons]
    rcases hl : alookup n.leaves k with _ | c <;> simp [hl]
  | cons r2 rest' ih =>
    intro n
    rw [Node.findRev_cons]
    rcases hl : alookup n.leaves k with _ | c
    · rw [Node.removeRev_cons_none hl]
      simp
    · rw [Node.removeRev_cons_some hl]
      rcases hres : (Node.removeRev c (r2 :: rest')).2 with e | u
      · have : ¬ (Node.findRev c (r2 :: rest')).isSome := by
          rw [← ih r2 c, hres]
          simp
        simp only [Except.isOk, Except.toBool, Bool.false_eq_true, if_false]
        simp [this]
      · obtain ⟨⟩ := u
        have : (Node.findRev c (r2 :: rest')).isSome := by
          rw [← ih r2 c, hres]
        simp only [Except.isOk, Except.toBool, if_true]
        split <;> simp [this]

@[simp] theorem numLeaves_zero (n : Node) : numLeaves 0 n = 1 := rfl

theorem numLeaves_succ (r : Nat) (n : Node) :
    numLeaves (r + 1) n = (n.leaves.map fun p => numLeaves r p.2).sum := rfl

@[simp] theorem leafVids_zero (n : Node) : leafVids 0 n = [n.vid] := rfl

theorem leafVids_succ (r : Nat) (n : Node) :
    leafVids (r + 1) n = (n.leaves.map fun p => leafVids r p.2).flatten := rfl

theorem treeInv_zero_iff (n : Node) :
    treeInv 0 n ↔ n.leaves = [] ∧ n.length = 0 := Iff.rfl

theorem treeInv_succ_iff (r : Nat) (n : Node) :
    treeInv (r + 1) n ↔
      n.length = (numLeaves (r + 1) n : Int) ∧
      (n.leaves.map Prod.fst).Nodup ∧
      (∀ p ∈ n.leaves, treeInv r p.2 ∧ 1 ≤ numLeaves r p.2) := Iff.rfl

/-- Allocation discipline of `node.add`: the counter only grows, ids below
the starting counter keep their heap bindings, and a returned leaf id lies
in the allocated window. -/
theorem Node.addRev_alloc (rtree : List String) (s : Service) (now : Nat) :
    ∀ n fresh heap,
      fresh ≤ (Node.addRev n rtree s now fresh heap).2.1 ∧
      (∀ w, w < fresh →
        alookup (Node.addRev n rtree s now fresh heap).2.2.1 w =
          alookup heap w) ∧
      (∀ lv, (Node.addRev n rtree s now fresh heap).2.2.2 = .ok lv →
        fresh ≤ lv ∧ lv < (Node.addRev n rtree s now fresh heap).2.1) := by
  induction rtree with
  | nil =>
    intro n fresh heap
    refine ⟨le_refl _, fun w _ => rfl, fun lv h => ?_⟩
    simp [Node.addRev_nil] at h
  | cons k rest ih =>
    intro n fresh heap
    cases rest with
    | nil =>
      rw [Node.addRev_single]
      by_cases hl : (alookup n.leaves k).isSome
      · simp [hl]
      · simp only [hl, Bool.false_eq_true, if_false]
        refine ⟨Nat.le_succ _, fun w hw => ?_, fun lv h => ?_⟩
        · exact alookup_ainsert_ne _ _ (by omega)
        · injection h with h
          subst h
          omega
    | cons r2 rest' =>
      rcases hl : alookup n.leaves k with _ | c
      · rw [Node.addRev_cons_none hl]
        simp only []
        obtain ⟨h1, h2, h3⟩ := ih (Node.mk [] 0 (n.depth + 1) fresh)
          (fresh + 1) (ainsert heap fresh (Service.zero, 0))
        refine ⟨by omega, fun w hw => ?_, fun lv h => ?_⟩
        · rw [h2 w (by omega)]
          exact alookup_ainsert_ne _ _ (by omega)
        · have := h3 lv h
          omega
      · rw [Node.addRev_cons_some hl]
        simp only []
        obtain ⟨h1, h2, h3⟩ := ih c fresh heap
        exact ⟨h1, h2, h3⟩

theorem alookup_append_ne [DecidableEq κ] (l : List (κ × α)) {k k' : κ}
    (v : α) (h : k' ≠ k) : alookup (l ++ [(k, v)]) k' = alookup l k' := by
  induction l with
  | nil => simp [alookup_cons, h]
  | cons q t ih =>
    obtain ⟨k₀, v₀⟩ := q
    by_cases h0 : k' = k₀ <;> simp [alookup_cons, h0, ih]

theorem alookup_append_self [DecidableEq κ] {l : List (κ × α)} {k : κ}
    (h : alookup l k = none) (v : α) : alookup (l ++ [(k, v)]) k = some v := by
  induction l with
  | nil => simp [alookup_cons]
  | cons q t ih =>
    obtain ⟨k₀, v₀⟩ := q
    by_cases h0 : k = k₀
    · subst h0; simp [alookup_cons] at h
    · rw [alookup_cons, if_neg h0] at h
      simpa [alookup_cons, h0] using ih h

/-- Invariant preservation and bookkeeping of a successful `node.add` on a
uniform-depth tree: the invariant is kept, the leaf count grows by one, the
leaf-id multiset gains exactly the new id, and every other full-depth path
resolves to the same node as before. -/
theorem Node.addRev_inv (rtree : List String) (s : Service) (now : Nat) :
    ∀ (r : Nat) (n : Node) (fresh : Nat) (heap : Heap) (lv : Nat),
      rtree.length = r → treeInv r n →
      (Node.addRev n rtree s now fresh heap).2.2.2 = .ok lv →
      treeInv r (Node.addRev n rtree s now fresh heap).1 ∧
      numLeaves r (Node.addRev n rtree s now fresh heap).1 =
        numLeaves r n + 1 ∧
      (leafVids r (Node.addRev n rtree s now fresh heap).1).Perm
        (lv :: leafVids r n) ∧
      (∀ rt', rt'.length = r → rt' ≠ rtree →
        Node.findRev (Node.addRev n rtree s now fresh heap).1 rt' =
          Node.findRev n rt') := by
  induction rtree with
  | nil =>
    intro r n fresh heap lv hlen hn h
    simp [Node.addRev_nil] at h
  | cons k rest ih =>
    intro r n fresh heap lv hlen hn h
    cases rest with
    | nil =>
      obtain rfl : r = 1 := by simpa using hlen.symm
      rw [Node.addRev_single] at h ⊢
      by_cases hl : (alookup n.leaves k).isSome
      · simp [hl] at h
      · simp only [hl, Bool.false_eq_true, if_false] at h ⊢
        injection h with h
        subst h
        have hnone : alookup n.leaves k = none := by
          rcases h' : alookup n.leaves k with _ | c
          · rfl
          · rw [h'] at hl; simp at hl
        rw [ainsert_append_of_none hnone]
        obtain ⟨hlen1, hnd1, hch1⟩ := (treeInv_succ_iff 0 n).1 hn
        refine ⟨?_, ?_, ?_, ?_⟩
        · rw [treeInv_succ_iff]
          refine ⟨?_, ?_, ?_⟩
          · simp only [Node.length_mk, Node.leaves_mk, numLeaves_succ,
              List.map_append, List.sum_append, List.map_cons,
              List.sum_cons, numLeaves_zero, List.map_nil, List.sum_nil]
            rw [hlen1]
            simp [numLeaves_succ]
          · simp only [Node.leaves_mk, List.map_append]
            rw [List.nodup_append]
            refine ⟨hnd1, by simp, ?_⟩
            intro a ha hb
            simp only [List.map_cons, List.map_nil, List.mem_singleton]
              at hb
            subst hb
            exact absurd hnone (by simp [alookup_eq_none_iff, ha])
          · intro p hp
            rcases List.mem_append.1 hp with hp' | hp'
            · exact hch1 p hp'
            · simp only [List.mem_singleton] at hp'
              subst hp'
              exact ⟨⟨rfl, rfl⟩, by simp⟩
        · simp [numLeaves_succ, List.map_append]
        · simp only [Node.leaves_mk, leafVids_succ, List.map_append,
            List.flatten_append, List.map_cons, leafVids_zero,
            List.map_nil, List.flatten_cons, List.flatten_nil,
            List.append_nil, Node.vid_mk]
          exact List.perm_append_singleton _ _
        · intro rt' hlen' hne
          rcases rt' with _ | ⟨x', rest''⟩
          · simp at hlen'
          · rcases rest'' with _ | ⟨y, rest''⟩
            · have hx : x' ≠ k := fun hx => hne (by rw [hx])
              rw [Node.findRev_cons, Node.findRev_cons, Node.leaves_mk,
                alookup_append_ne _ _ hx]
            · simp at hlen'
    | cons r2 rest' =>
      obtain rfl : r = (r2 :: rest').length + 1 := by
        simpa using hlen.symm
      rcases hl : alookup n.leaves k with _ | c
      · -- missing child: a fresh empty subtree is created and filled
        rw [Node.addRev_cons_none hl] at h ⊢
        simp only [] at h ⊢
        have hc0 : treeInv (r2 :: rest').length
            (Node.mk [] 0 (n.depth + 1) fresh) := by
          rw [List.length_cons, treeInv_succ_iff]
          exact ⟨by simp [numLeaves_succ], by simp, by simp⟩
        obtain ⟨ht, hnum, hperm, hfind⟩ := ih (r2 :: rest').length
          (Node.mk [] 0 (n.depth + 1) fresh) (fresh + 1)
          (ainsert heap fresh (Service.zero, 0)) lv rfl hc0 h
        have hnum0 : numLeaves (r2 :: rest').length
            (Node.mk [] 0 (n.depth + 1) fresh) = 0 := by
          rw [List.length_cons, numLeaves_succ]
          simp
        have hvids0 : leafVids (r2 :: rest').length
            (Node.mk [] 0 (n.depth + 1) fresh) = [] := by
          rw [List.length_cons, leafVids_succ]
          simp
        rw [hnum0] at hnum
        rw [hvids0] at hperm
        rw [h, ainsert_append_of_none hl,
          if_pos (show (Except.ok lv : Except RegErr Nat).isOk = true
            from rfl)]
        obtain ⟨hlen1, hnd1, hch1⟩ :=
          (treeInv_succ_iff (r2 :: rest').length n).1 hn
        refine ⟨?_, ?_, ?_, ?_⟩
        · rw [treeInv_succ_iff]
          refine ⟨?_, ?_, ?_⟩
          · simp only [Node.length_mk, Node.leaves_mk, numLeaves_succ,
              List.map_append, List.sum_append, List.map_cons,
              List.sum_cons, List.map_nil, List.sum_nil]
            rw [hlen1, hnum]
            rw [numLeaves_succ]
            push_cast
            ring
          · simp only [Node.leaves_mk, List.map_append]
            rw [List.nodup_append]
            refine ⟨hnd1, by simp, ?_⟩
            intro a ha hb
            simp only [List.map_cons, List.map_nil, List.mem_singleton]
              at hb
            subst hb
            exact absurd hl (by simp [alookup_eq_none_iff, ha])
          · intro p hp
            rcases List.mem_append.1 hp with hp' | hp'
            · exact hch1 p hp'
            · simp only [List.mem_singleton] at hp'
              subst hp'
              refine ⟨ht, ?_⟩
              simp only []
              omega
        · simp only [Node.leaves_mk, numLeaves_succ, List.map_append,
            List.sum_append, List.map_cons, List.sum_cons, List.map_nil,
            List.sum_nil, hnum]
          simp [numLeaves_succ]
        · simp only [Node.leaves_mk, leafVids_succ, List.map_append,
            List.flatten_append, List.map_cons, List.map_nil,
            List.flatten_cons, List.flatten_nil, List.append_nil]
          exact (List.Perm.append_left _ hperm).trans
            (List.perm_append_singleton _ _)
        · intro rt' hlen' hne
          rcases rt' with _ | ⟨x', rest''⟩
          · simp at hlen'
          · rw [Node.findRev_cons, Node.findRev_cons, Node.leaves_mk]
            by_cases hx : x' = k
            · subst hx
              rw [alookup_append_self hl, hl]
              simp only []
              have hrest : rest'' ≠ r2 :: rest' := fun hr =>
                hne (by rw [hr])
              have hlen'' : rest''.length = (r2 :: rest').length := by
                simpa using hlen'
              rw [hfind rest'' hlen'' hrest]
              have : Node.findRev (Node.mk [] 0 (n.depth + 1) fresh) rest''
                  = none := by
                rcases rest'' with _ | ⟨y, tail⟩
                · simp at hlen''
                · rw [Node.findRev_cons]
                  simp [alookup]
              rw [this]
            · rw [alookup_append_ne _ _ hx]
      · -- existing child: recurse
        rw [Node.addRev_cons_some hl] at h ⊢
        simp only [] at h ⊢
        obtain ⟨ht, hnum, hperm, hfind⟩ := ih (r2 :: rest').length c fresh
          heap lv rfl ((((treeInv_succ_iff _ n).1 hn).2.2 (k, c)
            (mem_of_alookup_eq_some hl)).1) h
        obtain ⟨hlen1, hnd1, hch1⟩ :=
          (treeInv_succ_iff (r2 :: rest').length n).1 hn
        obtain ⟨l1, l2, hdecomp, hknotin, hins, -⟩ := alookup_decomp hl
        rw [h, if_pos (show (Except.ok lv : Except RegErr Nat).isOk = true
          from rfl)]
        have hleq : ainsert n.leaves k
            (Node.addRev c (r2 :: rest') s now fresh heap).1 =
            l1 ++ (k, (Node.addRev c (r2 :: rest') s now fresh heap).1) :: l2 :=
          hins _
        refine ⟨?_, ?_, ?_, ?_⟩
        · rw [treeInv_succ_iff]
          refine ⟨?_, ?_, ?_⟩
          · simp only [Node.length_mk, Node.leaves_mk, hleq,
              numLeaves_succ, List.map_append, List.sum_append,
              List.map_cons, List.sum_cons]
            rw [hlen1, hnum]
            rw [numLeaves_succ, hdecomp]
            simp only [List.map_append, List.sum_append, List.map_cons,
              List.sum_cons]
            push_cast
            ring
          · simp only [Node.leaves_mk, hleq, List.map_append,
              List.map_cons]
            have : n.leaves.map Prod.fst =
                l1.map Prod.fst ++ k :: l2.map Prod.fst := by
              rw [hdecomp]; simp
            rw [this] at hnd1
            simpa using hnd1
          · intro p hp
            rw [Node.leaves_mk, hleq] at hp
            rcases List.mem_append.1 hp with hp' | hp'
            · exact hch1 p (by rw [hdecomp]; exact List.mem_append_left _ hp')
            · rcases List.mem_cons.1 hp' with rfl | hp''
              · refine ⟨ht, ?_⟩
                simp only []
                omega
              · exact hch1 p (by
                  rw [hdecomp]
                  exact List.mem_append_right _ (List.mem_cons_of_mem _ hp''))
        · simp only [Node.leaves_mk, hleq, numLeaves_succ]
          simp only [hdecomp, List.map_append, List.sum_append,
            List.map_cons, List.sum_cons, hnum]
          omega
        · simp only [Node.leaves_mk, hleq, leafVids_succ]
          simp only [hdecomp, List.map_append, List.flatten_append,
            List.map_cons, List.flatten_cons]
          rw [List.perm_iff_count]
          intro a
          have hc := hperm.count_eq a
          simp only [List.count_append, List.count_cons] at hc ⊢
          omega
        · intro rt' hlen' hne
          rcases rt' with _ | ⟨x', rest''⟩
          · simp at hlen'
          · rw [Node.findRev_cons, Node.findRev_cons, Node.leaves_mk]
            by_cases hx : x' = k
            · subst hx
              rw [alookup_ainsert_self, hl]
              have hrest : rest'' ≠ r2 :: rest' := fun hr =>
                hne (by rw [hr])
              have hlen'' : rest''.length = (r2 :: rest').length := by
                simpa using hlen'
              exact hfind rest'' hlen'' hrest
            · rw [alookup_ainsert_ne _ _ hx]

theorem aerase_append_not_mem [DecidableEq κ] {l1 : List (κ × α)} {k : κ}
    (h : k ∉ l1.map Prod.fst) (v : α) (l2 : List (κ × α)) :
    aerase (l1 ++ (k, v) :: l2) k = l1 ++ l2 := by
  induction l1 with
  | nil => simp [aerase]
  | cons q t ih =>
    obtain ⟨k₀, v₀⟩ := q
    simp only [List.map_cons, List.mem_cons] at h
    push_neg at h
    simp only [List.cons_append, aerase, if_neg h.1]
    show (k₀, v₀) :: aerase (t ++ (k, v) :: l2) k = (k₀, v₀) :: (t ++ l2)
    rw [ih h.2]

/-- Invariant preservation and bookkeeping of a successful `node.remove` on a
uniform-depth tree: removing a present full path succeeds, keeps the
invariant, drops exactly the removed leaf's id, decrements the length of
every surviving node on the path, and leaves every other full-depth path
resolving as before. -/
theorem Node.removeRev_inv (rtree : List String) :
    ∀ (r : Nat) (n m : Node),
      rtree.length = r → 1 ≤ r → treeInv r n →
      Node.findRev n rtree = some m →
      (Node.removeRev n rtree).2 = .ok () ∧
      treeInv r (Node.removeRev n rtree).1 ∧
      numLeaves r (Node.removeRev n rtree).1 + 1 = numLeaves r n ∧
      (leafVids r n).Perm (m.vid :: leafVids r (Node.removeRev n rtree).1) ∧
      (Node.removeRev n rtree).1.length = n.length - 1 ∧
      (∀ rt', rt'.length = r → rt' ≠ rtree →
        Node.findRev (Node.removeRev n rtree).1 rt' = Node.findRev n rt') ∧
      (∀ i, i < r → ∀ A',
        Node.findRev (Node.removeRev n rtree).1 (rtree.take i) = some A' →
        ∃ A, Node.findRev n (rtree.take i) = some A ∧
          A'.length = A.length - 1) := by
  induction rtree with
  | nil =>
    intro r n m hlen hr hn hf
    simp at hlen
    omega
  | cons k rest ih =>
    intro r n m hlen hr hn hf
    cases rest with
    | nil =>
      obtain rfl : r = 1 := by simpa using hlen.symm
      rw [Node.findRev_cons] at hf
      rcases hl : alookup n.leaves k with _ | c
      · rw [hl] at hf; cases hf
      · rw [hl] at hf
        simp only [Node.findRev_nil] at hf
        cases hf
        rw [Node.removeRev_single]
        rw [if_pos (by simp [hl])]
        obtain ⟨hlen1, hnd1, hch1⟩ := (treeInv_succ_iff 0 n).1 hn
        obtain ⟨l1, l2, hdecomp, hknotin, -, hdel⟩ := alookup_decomp hl
        have hm0 : numLeaves 0 m = 1 := rfl
        refine ⟨rfl, ?_, ?_, ?_, rfl, ?_, ?_⟩
        · rw [treeInv_succ_iff]
          refine ⟨?_, ?_, ?_⟩
          · simp only [Node.length_mk, Node.leaves_mk, hdel,
              numLeaves_succ]
            rw [hlen1]
            rw [numLeaves_succ, hdecomp]
            simp only [List.map_append, List.sum_append, List.map_cons,
              List.sum_cons, numLeaves_zero]
            push_cast
            ring
          · simp only [Node.leaves_mk]
            exact keys_aerase_nodup _ hnd1
          · intro p hp
            simp only [Node.leaves_mk, hdel] at hp
            refine hch1 p ?_
            rw [hdecomp]
            rcases List.mem_append.1 hp with hp' | hp'
            · exact List.mem_append_left _ hp'
            · exact List.mem_append_right _ (List.mem_cons_of_mem _ hp')
        · simp only [Node.leaves_mk, hdel, numLeaves_succ]
          rw [hdecomp]
          simp only [List.map_append, List.sum_append, List.map_cons,
            List.sum_cons, numLeaves_zero]
          omega
        · simp only [Node.leaves_mk, hdel, leafVids_succ]
          rw [hdecomp, List.perm_iff_count]
          intro a
          simp only [List.map_append, List.flatten_append, List.map_cons,
            List.flatten_cons, leafVids_zero, List.count_append,
            List.count_cons, List.count_nil]
          omega
        · intro rt' hlen' hne
          rcases rt' with _ | ⟨x', rest''⟩
          · simp at hlen'
          · rcases rest'' with _ | ⟨y, tail⟩
            · have hx : x' ≠ k := fun hx => hne (by rw [hx])
              rw [Node.findRev_cons, Node.findRev_cons, Node.leaves_mk,
                alookup_aerase_ne _ hx]
            · simp at hlen'
        · intro i hi A' hA'
          obtain rfl : i = 0 := by omega
          simp only [List.take_zero, Node.findRev_nil] at hA' ⊢
          cases hA'
          exact ⟨n, rfl, by simp⟩
    | cons r2 rest' =>
      obtain rfl : r = (r2 :: rest').length + 1 := by simpa using hlen.symm
      rw [Node.findRev_cons] at hf
      rcases hl : alookup n.leaves k with _ | c
      · rw [hl] at hf; cases hf
      · rw [hl] at hf
        obtain ⟨hstat, ht, hnum, hperm, hlenres, hfind, hanc⟩ :=
          ih (r2 :: rest').length c m rfl (by simp)
            ((((treeInv_succ_iff _ n).1 hn).2.2 (k, c)
              (mem_of_alookup_eq_some hl)).1) hf
        obtain ⟨hlen1, hnd1, hch1⟩ :=
          (treeInv_succ_iff (r2 :: rest').length n).1 hn
        obtain ⟨l1, l2, hdecomp, hknotin, hins, -⟩ := alookup_decomp hl
        have hleq : ainsert n.leaves k
            (Node.removeRev c (r2 :: rest')).1 =
            l1 ++ (k, (Node.removeRev c (r2 :: rest')).1) :: l2 := hins _
        have hchild := (((treeInv_succ_iff _ n).1 hn).2.2 (k, c)
          (mem_of_alookup_eq_some hl)).1
        rw [Node.removeRev_cons_some hl,
          if_pos (show ((Node.removeRev c (r2 :: rest')).2).isOk = true by
            rw [hstat]; rfl)]
        by_cases hsz : (Node.removeRev c (r2 :: rest')).1.size = 0
        · -- the child became empty and is pruned
          rw [if_pos hsz]
          have hres0 : numLeaves (r2 :: rest').length
              (Node.removeRev c (r2 :: rest')).1 = 0 := by
            have h1 : (Node.removeRev c (r2 :: rest')).1.length =
                (numLeaves (r2 :: rest').length
                  (Node.removeRev c (r2 :: rest')).1 : Int) := by
              rcases hr' : (r2 :: rest').length with _ | r''
              · simp at hr'
              · rw [hr'] at ht
                exact ((treeInv_succ_iff r'' _).1 ht).1
            have h2 : (Node.removeRev c (r2 :: rest')).1.length = 0 := hsz
            omega
          have hresvids : leafVids (r2 :: rest').length
              (Node.removeRev c (r2 :: rest')).1 = [] := by
            have := leafVids_length (r2 :: rest').length _ ht
            rw [hres0] at this
            exact List.length_eq_zero.1 this
          have hdel2 : aerase (ainsert n.leaves k
              (Node.removeRev c (r2 :: rest')).1) k = l1 ++ l2 := by
            rw [hleq]
            exact aerase_append_not_mem hknotin _ _
          refine ⟨hstat, ?_, ?_, ?_, rfl, ?_, ?_⟩
          · rw [treeInv_succ_iff]
            refine ⟨?_, ?_, ?_⟩
            · simp only [Node.length_mk, Node.leaves_mk, hdel2,
                numLeaves_succ]
              rw [hlen1]
              rw [numLeaves_succ, hdecomp]
              simp only [List.map_append, List.sum_append, List.map_cons,
                List.sum_cons]
              have : numLeaves (r2 :: rest').length c = 1 := by omega
              rw [this]
              push_cast
              ring
            · simp only [Node.leaves_mk, hdel2]
              have : (n.leaves.map Prod.fst) =
                  l1.map Prod.fst ++ k :: l2.map Prod.fst := by
                rw [hdecomp]; simp
              rw [this] at hnd1
              simp only [List.map_append]
              exact (List.nodup_middle.1 hnd1).of_cons
            · intro p hp
              simp only [Node.leaves_mk, hdel2] at hp
              refine hch1 p ?_
              rw [hdecomp]
              rcases List.mem_append.1 hp with hp' | hp'
              · exact List.mem_append_left _ hp'
              · exact List.mem_append_right _ (List.mem_cons_of_mem _ hp')
          · simp only [Node.leaves_mk, hdel2, numLeaves_succ]
            rw [hdecomp]
            simp only [List.map_append, List.sum_append, List.map_cons,
              List.sum_cons]
            omega
          · simp only [Node.leaves_mk, hdel2, leafVids_succ]
            rw [hdecomp, List.perm_iff_count]
            intro a
            have hc := hperm.count_eq a
            rw [hresvids] at hc
            simp only [List.count_cons, List.count_nil] at hc
            simp only [List.map_append, List.flatten_append, List.map_cons,
              List.flatten_cons, List.count_append, List.count_cons]
            omega
          · intro rt' hlen' hne
            rcases rt' with _ | ⟨x', rest''⟩
            · simp at hlen'
            · rw [Node.findRev_cons, Node.findRev_cons, Node.leaves_mk]
              by_cases hx : x' = k
              · subst hx
                rw [alookup_aerase_self _ _
                  (keys_ainsert_nodup _ _ hnd1), hl]
                simp only []
                have hrest : rest'' ≠ r2 :: rest' := fun hr =>
                  hne (by rw [hr])
                have hlen'' : rest''.length = (r2 :: rest').length := by
                  simpa using hlen'
                rw [← hfind rest'' hlen'' hrest]
                rw [findRev_of_numLeaves_zero (r2 :: rest').length _ rest''
                  ht (by simp) hres0 hlen'']
              · rw [alookup_aerase_ne _ hx, alookup_ainsert_ne _ _ hx]
          · intro i hi A' hA'
            rcases i with _ | j
            · simp only [List.take_zero, Node.findRev_nil] at hA' ⊢
              cases hA'
              exact ⟨n, rfl, by simp⟩
            · simp only [List.take_succ_cons, Node.findRev_cons,
                Node.leaves_mk] at hA' ⊢
              rw [alookup_aerase_self _ _
                (keys_ainsert_nodup _ _ hnd1)] at hA'
              cases hA'
        · -- the child stays
          rw [if_neg hsz]
          have hrespos : 1 ≤ numLeaves (r2 :: rest').length
              (Node.removeRev c (r2 :: rest')).1 := by
            have h1 : (Node.removeRev c (r2 :: rest')).1.length =
                (numLeaves (r2 :: rest').length
                  (Node.removeRev c (r2 :: rest')).1 : Int) := by
              rcases hr' : (r2 :: rest').length with _ | r''
              · simp at hr'
              · rw [hr'] at ht
                exact ((treeInv_succ_iff r'' _).1 ht).1
            have h2 : (Node.removeRev c (r2 :: rest')).1.length ≠ 0 := hsz
            omega
          refine ⟨hstat, ?_, ?_, ?_, rfl, ?_, ?_⟩
          · rw [treeInv_succ_iff]
            refine ⟨?_, ?_, ?_⟩
            · simp only [Node.length_mk, Node.leaves_mk, hleq,
                numLeaves_succ]
              rw [hlen1]
              rw [numLeaves_succ, hdecomp]
              simp only [List.map_append, List.sum_append, List.map_cons,
                List.sum_cons]
              push_cast
              omega
            · simp only [Node.leaves_mk, hleq, List.map_append,
                List.map_cons]
              have : (n.leaves.map Prod.fst) =
                  l1.map Prod.fst ++ k :: l2.map Prod.fst := by
                rw [hdecomp]; simp
              rw [this] at hnd1
              simpa using hnd1
            · intro p hp
              simp only [Node.leaves_mk, hleq] at hp
              rcases List.mem_append.1 hp with hp' | hp'
              · exact hch1 p (by
                  rw [hdecomp]; exact List.mem_append_left _ hp')
              · rcases List.mem_cons.1 hp' with rfl | hp''
                · exact ⟨ht, hrespos⟩
                · exact hch1 p (by
                    rw [hdecomp]
                    exact List.mem_append_right _
                      (List.mem_cons_of_mem _ hp''))
          · simp only [Node.leaves_mk, hleq, numLeaves_succ]
            simp only [hdecomp, List.map_append, List.sum_append,
              List.map_cons, List.sum_cons]
            omega
          · simp only [Node.leaves_mk, hleq, leafVids_succ]
            rw [hdecomp, List.perm_iff_count]
            intro a
            have hc := hperm.count_eq a
            simp only [List.count_cons] at hc
            simp only [List.map_append, List.flatten_append, List.map_cons,
              List.flatten_cons, List.count_append, List.count_cons]
            omega
          · intro rt' hlen' hne
            rcases rt' with _ | ⟨x', rest''⟩
            · simp at hlen'
            · rw [Node.findRev_cons, Node.findRev_cons, Node.leaves_mk]
              by_cases hx : x' = k
              · subst hx
                rw [alookup_ainsert_self, hl]
                simp only []
                have hrest : rest'' ≠ r2 :: rest' := fun hr =>
                  hne (by rw [hr])
                have hlen'' : rest''.length = (r2 :: rest').length := by
                  simpa using hlen'
                exact hfind rest'' hlen'' hrest
              · rw [alookup_ainsert_ne _ _ hx]
          · intro i hi A' hA'
            rcases i with _ | j
            · simp only [List.take_zero, Node.findRev_nil] at hA' ⊢
              cases hA'
              exact ⟨n, rfl, by simp⟩
            · simp only [List.take_succ_cons, Node.findRev_cons,
                Node.leaves_mk] at hA' ⊢
              rw [alookup_ainsert_self] at hA'
              simp only [] at hA'
              rw [hl]
              simp only []
              exact hanc j (by omega) A' hA'

/-- `node.remove` only ever fails with `ErrNotExists`. -/
theorem Node.removeRev_err_val (rtree : List String) :
    ∀ n e, (Node.removeRev n rtree).2 = .error e → e = .ErrNotExists := by
  induction rtree with
  | nil =>
    intro n e h
    rw [Node.removeRev_nil] at h
    injection h with h
    exact h.symm
  | cons k rest ih =>
    intro n e h
    cases rest with
    | nil =>
      rw [Node.removeRev_single] at h
      split at h
      · simp at h
      · injection h with h
        exact h.symm
    | cons r2 rest' =>
      rcases hl : alookup n.leaves k with _ | c
      · rw [Node.removeRev_cons_none hl] at h
        injection h with h
        exact h.symm
      · rw [Node.removeRev_cons_some hl] at h
        rcases hres : (Node.removeRev c (r2 :: rest')).2 with e' | u
        · rw [hres] at h
          simp only [Except.isOk, Except.toBool, Bool.false_eq_true,
            if_false] at h
          injection h with h
          exact h ▸ ih c e' hres
        · rw [hres] at h
          split at h
          · split at h <;> simp at h
          · simp at h

/-! ## Characterization of the successful registry mutations -/

section OkSpecs

attribute [local irreducible] goSplit getRegistryKey goToLower goReplaceDotDash

/-- Unfolding of a successful `Add`: the UUID was absent from the identity
index, the tree insertion succeeded with some leaf id, and the new state is
exactly the rebuilt tree, the index extended at the service's UUID, and the
insertion's heap and allocation counter. -/
theorem DefaultRegistry.Add_ok_spec (r : DefaultRegistry) (s : Service)
    (now : Nat) (h : (r.Add s now).2 = .ok ()) :
    alookup r.nodes s.uuid = none ∧
    ∃ lv,
      (Node.addRev r.tree ((goSplit (getRegistryKey s)).reverse) s now
        r.fresh r.heap).2.2.2 = .ok lv ∧
      (r.Add s now).1.tree =
        (Node.addRev r.tree ((goSplit (getRegistryKey s)).reverse) s now
          r.fresh r.heap).1 ∧
      (r.Add s now).1.nodes = ainsert r.nodes s.uuid lv ∧
      (r.Add s now).1.heap =
        (Node.addRev r.tree ((goSplit (getRegistryKey s)).reverse) s now
          r.fresh r.heap).2.2.1 ∧
      (r.Add s now).1.fresh =
        (Node.addRev r.tree ((goSplit (getRegistryKey s)).reverse) s now
          r.fresh r.heap).2.1 := by
  unfold DefaultRegistry.Add at h ⊢
  simp only [Node.add] at h ⊢
  generalize hgs : goSplit (getRegistryKey s) = ls at h ⊢
  by_cases hl : (alookup r.nodes s.uuid).isSome
  · simp [hl] at h
  · have hlnone : alookup r.nodes s.uuid = none := by
      rcases ho : alookup r.nodes s.uuid with _ | v
      · rfl
      · rw [ho] at hl; simp at hl
    simp only [hl, Bool.false_eq_true, if_false] at h ⊢
    rcases hres : (r.tree.addRev ls.reverse s now r.fresh r.heap).2.2.2
      with e' | lv
    · rw [hres] at h
      simp at h
    · obtain ⟨m2, hfind2, hvid2, hleaves2, hheap2⟩ :=
        Node.addRev_ok ls.reverse s now r.tree r.fresh r.heap lv hres
      refine ⟨hlnone, lv, rfl, rfl, ?_, rfl, rfl⟩
      show ainsert r.nodes
          (heapVal (r.tree.addRev ls.reverse s now r.fresh r.heap).2.2.1
            lv).1.uuid lv = ainsert r.nodes s.uuid lv
      rw [hheap2]

/-- Unfolding of `Remove`: the result tree and status are those of the tree
removal at the service's encoded key, a successful call erases the service's
UUID from the identity index, a failed one leaves the index alone, and the
heap and the allocation counter are never touched. -/
theorem DefaultRegistry.Remove_spec (r : DefaultRegistry) (s : Service) :
    (r.Remove s).1.tree =
      (Node.removeRev r.tree ((goSplit (getRegistryKey s)).reverse)).1 ∧
    (r.Remove s).2 =
      (Node.removeRev r.tree ((goSplit (getRegistryKey s)).reverse)).2 ∧
    ((r.Remove s).2 = .ok () →
      (r.Remove s).1.nodes = aerase r.nodes s.uuid) ∧
    ((r.Remove s).2 ≠ .ok () → (r.Remove s).1.nodes = r.nodes) ∧
    (r.Remove s).1.heap = r.heap ∧
    (r.Remove s).1.fresh = r.fresh := by
  unfold DefaultRegistry.Remove
  simp only [Node.remove]
  generalize hgs : goSplit (getRegistryKey s) = ls
  rcases hres : (r.tree.removeRev ls.reverse).2 with e | u
  · refine ⟨rfl, rfl, ?_, fun _ => rfl, rfl, rfl⟩
    intro hko
    simp at hko
  · obtain ⟨⟩ := u
    refine ⟨rfl, rfl, fun _ => rfl, ?_, rfl, rfl⟩
    intro hko
    exact absurd rfl hko

end OkSpecs

/-- Equal lookups give equal dereferences. -/
theorem heapVal_congr {h1 h2 : Heap} {v : Nat}
    (h : alookup h1 v = alookup h2 v) : heapVal h1 v = heapVal h2 v := by
  simp [heapVal, h]

/-! ## Reachability under the spec's dot-free trust assumption -/

/-- Invariant carried by `ReachSix` states (used for C5 and C9): the tree is
a uniform-depth six-level map, and every identity-index entry lies below the
allocation counter and stores a service whose encoded key has six labels. -/
def InvSix (r : DefaultRegistry) : Prop :=
  treeInv 6 r.tree ∧
  ∀ p ∈ r.nodes, p.2 < r.fresh ∧ sixKey (heapVal r.heap p.2).1

/-- The registry states reachable from `New` when, per the spec's caller
contract, every service passed to `Add` or `Remove` encodes to a six-label
key (`RemoveUUID` and `UpdateTTL` are unrestricted; failing calls of any
shape are allowed since they do not change the state; the read-only
operations do not change the state at all).  `a` counts the successful
`Add`s and `m` the successful removals (`Remove` or `RemoveUUID`). -/
inductive ReachSix : DefaultRegistry → Nat → Nat → Prop
  | new : ReachSix DefaultRegistry.New 0 0
  | addOk {r a m} (s : Service) (now : Nat) : ReachSix r a m → sixKey s →
      (r.Add s now).2 = .ok () → ReachSix (r.Add s now).1 (a + 1) m
  | addErr {r a m} (s : Service) (now : Nat) (e : RegErr) : ReachSix r a m →
      (r.Add s now).2 = .error e → ReachSix (r.Add s now).1 a m
  | removeOk {r a m} (s : Service) : ReachSix r a m → sixKey s →
      (r.Remove s).2 = .ok () → ReachSix (r.Remove s).1 a (m + 1)
  | removeErr {r a m} (s : Service) (e : RegErr) : ReachSix r a m →
      (r.Remove s).2 = .error e → ReachSix (r.Remove s).1 a m
  | removeUUIDOk {r a m} (u : String) : ReachSix r a m →
      (r.RemoveUUID u).2 = .ok () → ReachSix (r.RemoveUUID u).1 a (m + 1)
  | removeUUIDErr {r a m} (u : String) (e : RegErr) : ReachSix r a m →
      (r.RemoveUUID u).2 = .error e → ReachSix (r.RemoveUUID u).1 a m
  | updateTTL {r a m} (u : String) (ttl now : Nat) : ReachSix r a m →
      ReachSix (r.UpdateTTL u ttl now).1 a m

/-- A successful `Remove` of a six-label service keeps `InvSix` and removes
exactly one leaf. -/
theorem InvSix_removeOk {r : DefaultRegistry} {s : Service}
    (hI : InvSix r) (hs : sixKey s) (hok : (r.Remove s).2 = .ok ()) :
    InvSix (r.Remove s).1 ∧
    numLeaves 6 (r.Remove s).1.tree + 1 = numLeaves 6 r.tree := by
  obtain ⟨htree, hstat, hnodesok, hnodeserr, hheap, hfresh⟩ :=
    DefaultRegistry.Remove_spec r s
  have hplen : ((goSplit (getRegistryKey s)).reverse).length = 6 := by
    rw [List.length_reverse]; exact hs
  have hrok : (Node.removeRev r.tree
      ((goSplit (getRegistryKey s)).reverse)).2 = .ok () := by
    rw [← hstat]; exact hok
  have hfind : ∃ mm, Node.findRev r.tree
      ((goSplit (getRegistryKey s)).reverse) = some mm := by
    rcases hp : (goSplit (getRegistryKey s)).reverse with _ | ⟨k, rest⟩
    · rw [hp] at hplen; simp at hplen
    · rw [hp] at hrok
      have hiso := (Node.removeRev_status k rest r.tree).1 hrok
      rcases hX : Node.findRev r.tree (k :: rest) with _ | mm
      · rw [hX] at hiso; simp at hiso
      · exact ⟨mm, rfl⟩
  obtain ⟨mm, hmm⟩ := hfind
  obtain ⟨-, hti, hnum, hperm, hlen, hpres, hanc⟩ :=
    Node.removeRev_inv ((goSplit (getRegistryKey s)).reverse) 6 r.tree mm
      hplen (by omega) hI.1 hmm
  refine ⟨⟨?_, ?_⟩, ?_⟩
  · rw [htree]; exact hti
  · intro p hp
    rw [hnodesok hok] at hp
    have hp' : p ∈ r.nodes := (aerase_sublist r.nodes s.uuid).subset hp
    obtain ⟨hlt, hsix⟩ := hI.2 p hp'
    refine ⟨by rw [hfresh]; exact hlt, ?_⟩
    rw [hheap]
    exact hsix
  · rw [htree]
    exact hnum

/-- Every `ReachSix` state satisfies `InvSix`, and its leaf count is the
number of successful `Add`s minus the number of successful removals. -/
theorem reachSix_inv : ∀ {r : DefaultRegistry} {a m : Nat},
    ReachSix r a m → InvSix r ∧ numLeaves 6 r.tree + m = a := by
  intro r a m h
  induction h with
  | new =>
    refine ⟨⟨?_, ?_⟩, ?_⟩
    · rw [treeInv_succ_iff]
      refine ⟨?_, ?_, ?_⟩
      · simp [numLeaves_succ, DefaultRegistry.New]
      · simp [DefaultRegistry.New]
      · intro p hp
        simp [DefaultRegistry.New] at hp
    · intro p hp
      simp [DefaultRegistry.New] at hp
    · simp [numLeaves_succ, DefaultRegistry.New]
  | addOk s now hre hs hok ih =>
    obtain ⟨⟨hti, hent⟩, hcnt⟩ := ih
    rename_i r a m
    obtain ⟨hlnone, lv, hres, htree, hnodes, hheap, hfresh⟩ :=
      DefaultRegistry.Add_ok_spec r s now hok
    have hplen : ((goSplit (getRegistryKey s)).reverse).length = 6 := by
      rw [List.length_reverse]; exact hs
    obtain ⟨hti', hnum, hperm, hpres⟩ :=
      Node.addRev_inv ((goSplit (getRegistryKey s)).reverse) s now 6 r.tree
        r.fresh r.heap lv hplen hti hres
    obtain ⟨hmono, hold, hwin⟩ :=
      Node.addRev_alloc ((goSplit (getRegistryKey s)).reverse) s now r.tree
        r.fresh r.heap
    obtain ⟨m2, hfind2, hvid2, hleaves2, hheap2⟩ :=
      Node.addRev_ok ((goSplit (getRegistryKey s)).reverse) s now r.tree
        r.fresh r.heap lv hres
    refine ⟨⟨?_, ?_⟩, ?_⟩
    · rw [htree]; exact hti'
    · intro p hp
      rw [hnodes] at hp
      rcases mem_ainsert hp with rfl | hp'
      · refine ⟨?_, ?_⟩
        · rw [hfresh]
          exact (hwin lv hres).2
        · rw [hheap]
          show sixKey (heapVal _ lv).1
          rw [hheap2]
          exact hs
      · obtain ⟨hlt, hsix⟩ := hent p hp'
        refine ⟨?_, ?_⟩
        · rw [hfresh]
          omega
        · rw [hheap]
          rw [heapVal_congr (hold p.2 hlt)]
          exact hsix
    · rw [htree, hnum]
      omega
  | addErr s now e hre herr ih =>
    rename_i r a m
    rw [DefaultRegistry.Add_err r s now e herr]
    exact ih
  | removeOk s hre hs hok ih =>
    obtain ⟨hI, hcnt⟩ := ih
    obtain ⟨hI', hnum⟩ := InvSix_removeOk hI hs hok
    exact ⟨hI', by omega⟩
  | removeErr s e hre herr ih =>
    rename_i r a m
    rw [DefaultRegistry.Remove_err r s e herr]
    exact ih
  | removeUUIDOk u hre hok ih =>
    rename_i r a m
    obtain ⟨hI, hcnt⟩ := ih
    rcases hl : alookup r.nodes u with _ | v
    · exfalso
      simp [DefaultRegistry.RemoveUUID, hl] at hok
    · have hmem := mem_of_alookup_eq_some hl
      have hsix : sixKey (heapVal r.heap v).1 := (hI.2 (u, v) hmem).2
      have hRU : r.RemoveUUID u = r.Remove (heapVal r.heap v).1 := by
        simp [DefaultRegistry.RemoveUUID, hl]
      rw [hRU] at hok ⊢
      obtain ⟨hI', hnum⟩ := InvSix_removeOk hI hsix hok
      exact ⟨hI', by omega⟩
  | removeUUIDErr u e hre herr ih =>
    rename_i r a m
    rw [DefaultRegistry.RemoveUUID_err r u e herr]
    exact ih
  | updateTTL u ttl now hre ih =>
    rename_i r a m
    obtain ⟨hI, hcnt⟩ := ih
    rcases hl : alookup r.nodes u with _ | v
    · have hid : (r.UpdateTTL u ttl now).1 = r := by
        simp [DefaultRegistry.UpdateTTL, hl]
      rw [hid]
      exact ⟨hI, hcnt⟩
    · have htree : (r.UpdateTTL u ttl now).1.tree = r.tree := by
        simp [DefaultRegistry.UpdateTTL, hl]
      have hnodes : (r.UpdateTTL u ttl now).1.nodes = r.nodes := by
        simp [DefaultRegistry.UpdateTTL, hl]
      have hfresh : (r.UpdateTTL u ttl now).1.fresh = r.fresh := by
        simp [DefaultRegistry.UpdateTTL, hl]
      have hheap : (r.UpdateTTL u ttl now).1.heap =
          ainsert r.heap v ({ (heapVal r.heap v).1 with ttl := ttl },
            getExpirationTime ttl now) := by
        simp [DefaultRegistry.UpdateTTL, hl]
      refine ⟨⟨?_, ?_⟩, ?_⟩
      · rw [htree]; exact hI.1
      · intro p hp
        rw [hnodes] at hp
        obtain ⟨hlt, hsix⟩ := hI.2 p hp
        refine ⟨by rw [hfresh]; exact hlt, ?_⟩
        rw [hheap]
        by_cases hv : p.2 = v
        · have hder : heapVal (ainsert r.heap v
              ({ (heapVal r.heap v).1 with ttl := ttl },
                getExpirationTime ttl now)) v =
              ({ (heapVal r.heap v).1 with ttl := ttl },
                getExpirationTime ttl now) := by
            simp [heapVal]
          rw [hv, hder]
          show sixKey { (heapVal r.heap v).1 with ttl := ttl }
          unfold sixKey
          rw [getRegistryKey_ttl]
          rw [hv] at hsix
          exact hsix
        · rw [heapVal_congr (alookup_ainsert_ne r.heap _ hv)]
          exact hsix
      · rw [htree]
        exact hcnt

/-! ## Fixtures for the dotted-UUID and case-forged traces -/

/-- A service whose UUID contains a dot, so its encoded key has seven
labels. -/
def svcDot : Service := ⟨"z.u1", "h", "r", "v", "n", "e", 0⟩

/-- `regA` after additionally adding the dotted-UUID service: its leaf is
nested beneath `svcA`'s leaf. -/
def regC : DefaultRegistry := (regA.Add svcDot 0).1

/-- `regC` after removing `svcA`: the removal discards the nested subtree. -/
def regD : DefaultRegistry := (regC.Remove svcA).1

/-- A service agreeing with `svcA` except for the case of the UUID. -/
def svcU : Service := ⟨"U1", "h", "r", "v", "n", "e", 30⟩

/-- `regA` after a `Remove` keyed by the case-forged service `svcU`. -/
def regE : DefaultRegistry := (regA.Remove svcU).1

instance (s : Service) : Decidable (sixKey s) := by
  unfold sixKey
  infer_instance

/-- **C5** (amended to the spec's caller contract that field values are
dot-free, i.e. every key has six labels): in every state reachable by
six-label `Add`s and removals, the tree satisfies the uniform-depth
invariant — in particular every internal node's `length` equals the number
of leaves in its subtree — and `Len()` equals the number of successful
`Add`s minus the number of successful removals.  Without the six-label
restriction the per-node claim is false: see `C5_counterexample`. -/
theorem C5_node_length_leaf_count (r : DefaultRegistry) (a m : Nat)
    (h : ReachSix r a m) :
    treeInv 6 r.tree ∧ m ≤ a ∧ r.Len = (a : Int) - (m : Int) := by
  obtain ⟨⟨hti, hent⟩, hcnt⟩ := reachSix_inv h
  have hlen : r.tree.length = (numLeaves 6 r.tree : Int) :=
    ((treeInv_succ_iff 5 r.tree).1 hti).1
  refine ⟨hti, by omega, ?_⟩
  show r.tree.length = (a : Int) - (m : Int)
  rw [hlen]
  omega

/-- Witness for C5: the one-service registry `regA` (one successful `Add`,
no removals) satisfies the tree invariant and has `Len() = 1 - 0`. -/
theorem C5_node_length_leaf_count_witness :
    treeInv 6 regA.tree ∧ 0 ≤ 1 ∧ regA.Len = (1 : Int) - (0 : Int) :=
  C5_node_length_leaf_count regA 1 0
    (ReachSix.addOk svcA 0 ReachSix.new (by decide) (by decide))

/-- Counterexample to C5 as stated: with a dotted UUID (`"z.u1"`) the `Add`
nests a leaf beneath `svcA`'s leaf; the later successful `Remove` of `svcA`
discards that subtree while decrementing each ancestor once, leaving the
depth-5 node childless with `length = 1` although it has no leaves below,
so `length` no longer counts the leaves. -/
theorem C5_counterexample :
    (regA.Add svcDot 0).2 = .ok () ∧
    (regC.Remove svcA).2 = .ok () ∧
    Node.findRev regD.tree ["e", "n", "v", "r", "h"] =
      some (Node.mk [] 1 5 5) ∧
    (Node.mk [] 1 5 5).length = 1 ∧
    numLeaves 1 (Node.mk [] 1 5 5) = 0 :=
  ⟨by decide, by decide, rfl, rfl, rfl⟩

/-- **C9** (amended to the spec's caller contract of six-label keys): from
any state reachable under that contract, a `Remove` whose encoded path has
an absent segment fails with `ErrNotExists`; a successful `Remove`
decrements the `length` of every surviving node along the path (the root
included) and leaves no empty internal node; and no empty internal node
survives a successful `RemoveUUID` either.  Without the restriction the
pruning part is false: see `C9_counterexample`. -/
theorem C9_remove_prunes (r : DefaultRegistry) (a m : Nat) (s : Service)
    (u : String) (h : ReachSix r a m) (hs : sixKey s) :
    (Node.findRev r.tree ((goSplit (getRegistryKey s)).reverse) = none →
      (r.Remove s).2 = .error .ErrNotExists) ∧
    ((r.Remove s).2 = .ok () →
      noEmptyInternal 6 (r.Remove s).1.tree ∧
      (∀ i, i < 6 → ∀ A',
        Node.findRev (r.Remove s).1.tree
          (((goSplit (getRegistryKey s)).reverse).take i) = some A' →
        ∃ A, Node.findRev r.tree
            (((goSplit (getRegistryKey s)).reverse).take i) = some A ∧
          A'.length = A.length - 1)) ∧
    ((r.RemoveUUID u).2 = .ok () →
      noEmptyInternal 6 (r.RemoveUUID u).1.tree) := by
  obtain ⟨htree, hstat, hnodesok, hnodeserr, hheap, hfresh⟩ :=
    DefaultRegistry.Remove_spec r s
  have hplen : ((goSplit (getRegistryKey s)).reverse).length = 6 := by
    rw [List.length_reverse]; exact hs
  refine ⟨?_, ?_, ?_⟩
  · intro hnone
    rw [hstat]
    rcases hres : (Node.removeRev r.tree
        ((goSplit (getRegistryKey s)).reverse)).2 with e | uu
    · rw [Node.removeRev_err_val _ _ _ hres]
    · exfalso
      obtain ⟨⟩ := uu
      rcases hp : (goSplit (getRegistryKey s)).reverse with _ | ⟨k, rest⟩
      · rw [hp] at hplen; simp at hplen
      · rw [hp] at hres hnone
        have := (Node.removeRev_status k rest r.tree).1 hres
        rw [hnone] at this
        simp at this
  · intro hok
    have hre' : ReachSix (r.Remove s).1 a (m + 1) :=
      ReachSix.removeOk s h hs hok
    have hti' := (reachSix_inv hre').1.1
    refine ⟨treeInv_noEmptyInternal 6 _ hti', ?_⟩
    have hti := (reachSix_inv h).1.1
    have hrok : (Node.removeRev r.tree
        ((goSplit (getRegistryKey s)).reverse)).2 = .ok () := by
      rw [← hstat]; exact hok
    have hfind : ∃ mm, Node.findRev r.tree
        ((goSplit (getRegistryKey s)).reverse) = some mm := by
      rcases hp : (goSplit (getRegistryKey s)).reverse with _ | ⟨k, rest⟩
      · rw [hp] at hplen; simp at hplen
      · rw [hp] at hrok
        have hiso := (Node.removeRev_status k rest r.tree).1 hrok
        rcases hX : Node.findRev r.tree (k :: rest) with _ | mm
        · rw [hX] at hiso; simp at hiso
        · exact ⟨mm, rfl⟩
    obtain ⟨mm, hmm⟩ := hfind
    obtain ⟨-, -, -, -, -, -, hanc⟩ :=
      Node.removeRev_inv ((goSplit (getRegistryKey s)).reverse) 6 r.tree mm
        hplen (by omega) hti hmm
    intro i hi A' hA'
    rw [htree] at hA'
    exact hanc i hi A' hA'
  · intro hok
    have hre' : ReachSix (r.RemoveUUID u).1 a (m + 1) :=
      ReachSix.removeUUIDOk u h hok
    exact treeInv_noEmptyInternal 6 _ (reachSix_inv hre').1.1

/-- Witness for C9, instantiated at the one-service registry `regA` and the
six-label service `svcA` (and the stored UUID `u1`). -/
theorem C9_remove_prunes_witness :
    (Node.findRev regA.tree ((goSplit (getRegistryKey svcA)).reverse) =
        none →
      (regA.Remove svcA).2 = .error .ErrNotExists) ∧
    ((regA.Remove svcA).2 = .ok () →
      noEmptyInternal 6 (regA.Remove svcA).1.tree ∧
      (∀ i, i < 6 → ∀ A',
        Node.findRev (regA.Remove svcA).1.tree
          (((goSplit (getRegistryKey svcA)).reverse).take i) = some A' →
        ∃ A, Node.findRev regA.tree
            (((goSplit (getRegistryKey svcA)).reverse).take i) = some A ∧
          A'.length = A.length - 1)) ∧
    ((regA.RemoveUUID "u1").2 = .ok () →
      noEmptyInternal 6 (regA.RemoveUUID "u1").1.tree) :=
  C9_remove_prunes regA 1 0 svcA "u1"
    (ReachSix.addOk svcA 0 ReachSix.new (by decide) (by decide)) (by decide)

/-- Counterexample to C9 as stated: after the dotted-UUID trace, the
successful `Remove` of `svcA` leaves the childless depth-5 node in place —
an empty internal node survives a successful `Remove`. -/
theorem C9_counterexample :
    (regC.Remove svcA).2 = .ok () ∧
    Node.findRev (regC.Remove svcA).1.tree ["e", "n", "v", "r", "h"] =
      some (Node.mk [] 1 5 5) ∧
    ¬ noEmptyInternal 6 (regC.Remove svcA).1.tree := by
  refine ⟨by decide, rfl, ?_⟩
  intro hne
  have htree : (regC.Remove svcA).1.tree =
      Node.mk [("e", Node.mk [("n", Node.mk [("v", Node.mk [("r",
        Node.mk [("h", Node.mk [] 1 5 5)] 1 4 4)] 1 3 3)] 1 2 2)] 1 1 1)]
        1 0 0 := rfl
  rw [htree] at hne
  have h1 := (hne _ (List.mem_singleton.mpr rfl)).2
  have h2 := (h1 _ (List.mem_singleton.mpr rfl)).2
  have h3 := (h2 _ (List.mem_singleton.mpr rfl)).2
  have h4 := (h3 _ (List.mem_singleton.mpr rfl)).2
  exact (h4 _ (List.mem_singleton.mpr rfl)).1 (le_refl 1) rfl

/-- A node found at full depth in a uniform-depth tree is a childless leaf
with `length = 0`. -/
theorem findRev_treeInv : ∀ (rt : List String) (r : Nat) (n m : Node),
    rt.length = r → treeInv r n → Node.findRev n rt = some m →
    m.leaves = [] ∧ m.length = 0 := by
  intro rt
  induction rt with
  | nil =>
    intro r n m hlen ht hf
    obtain rfl : r = 0 := by simpa using hlen.symm
    rw [Node.findRev_nil] at hf
    injection hf with hf
    subst hf
    exact ht
  | cons k rest ih =>
    intro r n m hlen ht hf
    rcases r with _ | r'
    · simp at hlen
    · rw [Node.findRev_cons] at hf
      rcases hl : alookup n.leaves k with _ | c
      · rw [hl] at hf
        simp at hf
      · rw [hl] at hf
        have hc := (((treeInv_succ_iff r' n).1 ht).2.2 (k, c)
          (mem_of_alookup_eq_some hl)).1
        exact ih r' c m (by simpa using hlen) hc hf

/-! ## Reachability with removals keyed by the stored records -/

/-- Invariant carried by `ReachE` states (used for C1): the tree is a
uniform-depth six-level map; index keys are distinct; leaf ids are distinct
and (as a multiset) are exactly the ids stored in the index; every leaf id
lies below the allocation counter; and every index entry stores a service
registered under its own UUID with a six-label key that resolves through
the tree to a node carrying the entry's id. -/
def InvE (r : DefaultRegistry) : Prop :=
  treeInv 6 r.tree ∧
  (r.nodes.map Prod.fst).Nodup ∧
  (leafVids 6 r.tree).Nodup ∧
  (r.nodes.map Prod.snd).Perm (leafVids 6 r.tree) ∧
  (∀ w ∈ leafVids 6 r.tree, w < r.fresh) ∧
  (∀ p ∈ r.nodes, (heapVal r.heap p.2).1.uuid = p.1 ∧
    sixKey (heapVal r.heap p.2).1 ∧
    ∃ nd, Node.findRev r.tree
      ((goSplit (getRegistryKey (heapVal r.heap p.2).1)).reverse) =
        some nd ∧
      nd.vid = p.2)

/-- The registry states reachable from `New` when callers obey the spec's
contract: services passed to `Add` encode to six-label keys, and `Remove`
is called with the record stored for its UUID (as `RemoveUUID` does
internally).  Failing calls of any shape are allowed, as are arbitrary
`RemoveUUID` and `UpdateTTL` calls and the read-only operations. -/
inductive ReachE : DefaultRegistry → Prop
  | new : ReachE DefaultRegistry.New
  | addOk {r} (s : Service) (now : Nat) : ReachE r → sixKey s →
      (r.Add s now).2 = .ok () → ReachE (r.Add s now).1
  | addErr {r} (s : Service) (now : Nat) (e : RegErr) : ReachE r →
      (r.Add s now).2 = .error e → ReachE (r.Add s now).1
  | removeStored {r v} (s : Service) : ReachE r →
      alookup r.nodes s.uuid = some v → (heapVal r.heap v).1 = s →
      ReachE (r.Remove s).1
  | removeErr {r} (s : Service) (e : RegErr) : ReachE r →
      (r.Remove s).2 = .error e → ReachE (r.Remove s).1
  | removeUUID {r} (u : String) : ReachE r → ReachE (r.RemoveUUID u).1
  | updateTTL {r} (u : String) (ttl now : Nat) : ReachE r →
      ReachE (r.UpdateTTL u ttl now).1

/-- A successful six-label `Add` keeps `InvE`. -/
theorem InvE_addOk {r : DefaultRegistry} {s : Service} {now : Nat}
    (hI : InvE r) (hs : sixKey s) (hok : (r.Add s now).2 = .ok ()) :
    InvE (r.Add s now).1 := by
  obtain ⟨hti, hknd, hvnd, hperm, hvb, hent⟩ := hI
  obtain ⟨hlnone, lv, hres, htree, hnodes, hheap, hfresh⟩ :=
    DefaultRegistry.Add_ok_spec r s now hok
  have hplen : ((goSplit (getRegistryKey s)).reverse).length = 6 := by
    rw [List.length_reverse]; exact hs
  obtain ⟨hti', hnum, hperm', hpres⟩ :=
    Node.addRev_inv ((goSplit (getRegistryKey s)).reverse) s now 6 r.tree
      r.fresh r.heap lv hplen hti hres
  obtain ⟨hmono, hold, hwin⟩ :=
    Node.addRev_alloc ((goSplit (getRegistryKey s)).reverse) s now r.tree
      r.fresh r.heap
  obtain ⟨m2, hfind2, hvid2, hleaves2, hheap2⟩ :=
    Node.addRev_ok ((goSplit (getRegistryKey s)).reverse) s now r.tree
      r.fresh r.heap lv hres
  have hnone0 : Node.findRev r.tree ((goSplit (getRegistryKey s)).reverse)
      = none :=
    Node.addRev_ok_find_none _ s now r.tree r.fresh r.heap lv hres
  have hlvfresh := hwin lv hres
  have hlvnotold : lv ∉ leafVids 6 r.tree := fun hmem => by
    have := hvb lv hmem
    omega
  refine ⟨?_, ?_, ?_, ?_, ?_, ?_⟩
  · rw [htree]; exact hti'
  · rw [hnodes]
    exact keys_ainsert_nodup _ _ hknd
  · rw [htree]
    exact hperm'.nodup_iff.2 (List.nodup_cons.mpr ⟨hlvnotold, hvnd⟩)
  · rw [hnodes, htree, ainsert_append_of_none hlnone]
    rw [List.perm_iff_count]
    intro a
    have h1 := hperm.count_eq a
    have h2 := hperm'.count_eq a
    simp only [List.map_append, List.map_cons, List.map_nil,
      List.count_append, List.count_cons, List.count_nil] at h1 h2 ⊢
    omega
  · rw [htree, hfresh]
    intro w hw
    have hw' : w ∈ lv :: leafVids 6 r.tree := hperm'.subset hw
    rcases List.mem_cons.1 hw' with rfl | hw''
    · exact hlvfresh.2
    · have := hvb w hw''
      omega
  · intro p hp
    rw [hnodes] at hp
    rcases mem_ainsert hp with rfl | hp'
    · simp only []
      rw [hheap, hheap2, htree]
      exact ⟨rfl, hs, m2, hfind2, hvid2⟩
    · obtain ⟨huid, hsix, nd, hnd, hvid⟩ := hent p hp'
      have hp2lt : p.2 < r.fresh := by
        have hmm : p.2 ∈ r.nodes.map Prod.snd := List.mem_map.2 ⟨p, hp', rfl⟩
        exact hvb p.2 (hperm.subset hmm)
      have hheapeq : heapVal (r.Add s now).1.heap p.2 = heapVal r.heap p.2 := by
        rw [hheap]; exact heapVal_congr (hold p.2 hp2lt)
      rw [hheapeq, htree]
      have hplen' : ((goSplit (getRegistryKey
          (heapVal r.heap p.2).1)).reverse).length = 6 := by
        rw [List.length_reverse]; exact hsix
      have hne : (goSplit (getRegistryKey (heapVal r.heap p.2).1)).reverse ≠
          (goSplit (getRegistryKey s)).reverse := by
        intro heq
        rw [heq, hnone0] at hnd
        simp at hnd
      refine ⟨huid, hsix, nd, ?_, hvid⟩
      rw [hpres _ hplen' hne]
      exact hnd

/-- A `Remove` keyed by the record stored for its UUID succeeds and keeps
`InvE`. -/
theorem InvE_removeStored {r : DefaultRegistry} {s : Service} {v : Nat}
    (hI : InvE r) (hl : alookup r.nodes s.uuid = some v)
    (hstored : (heapVal r.heap v).1 = s) :
    (r.Remove s).2 = .ok () ∧ InvE (r.Remove s).1 := by
  obtain ⟨hti, hknd, hvnd, hperm, hvb, hent⟩ := hI
  obtain ⟨htree, hstat, hnodesok, hnodeserr, hheap, hfresh⟩ :=
    DefaultRegistry.Remove_spec r s
  have hmem : (s.uuid, v) ∈ r.nodes := mem_of_alookup_eq_some hl
  have hentv := hent (s.uuid, v) hmem
  simp only [] at hentv
  obtain ⟨huid0, hsix0, nd, hnd, hndvid⟩ := hentv
  rw [hstored] at hnd hsix0
  have hplen : ((goSplit (getRegistryKey s)).reverse).length = 6 := by
    rw [List.length_reverse]; exact hsix0
  have hrok : (Node.removeRev r.tree
      ((goSplit (getRegistryKey s)).reverse)).2 = .ok () := by
    rcases hp : (goSplit (getRegistryKey s)).reverse with _ | ⟨k, rest⟩
    · rw [hp] at hplen; simp at hplen
    · rw [hp] at hnd
      exact (Node.removeRev_status k rest r.tree).2 (by rw [hnd]; rfl)
  have hok : (r.Remove s).2 = .ok () := by rw [hstat]; exact hrok
  obtain ⟨-, hti', hnum, hperm', hlen', hpres, hanc⟩ :=
    Node.removeRev_inv ((goSplit (getRegistryKey s)).reverse) 6 r.tree nd
      hplen (by omega) hti hnd
  obtain ⟨l1, l2, hdecomp, hnotin, hins, hdel⟩ := alookup_decomp hl
  have hmap : r.nodes.map Prod.snd =
      l1.map Prod.snd ++ v :: l2.map Prod.snd := by
    rw [hdecomp]; simp
  refine ⟨hok, ?_, ?_, ?_, ?_, ?_, ?_⟩
  · rw [htree]; exact hti'
  · rw [hnodesok hok]
    exact keys_aerase_nodup _ hknd
  · rw [htree]
    exact (hperm'.nodup_iff.1 hvnd).of_cons
  · rw [hnodesok hok, htree, hdel]
    rw [List.perm_iff_count]
    intro a
    have h1 := hperm.count_eq a
    have h2 := hperm'.count_eq a
    rw [hmap] at h1
    rw [hndvid] at h2
    simp only [List.map_append, List.map_cons, List.map_nil,
      List.count_append, List.count_cons, List.count_nil] at h1 h2 ⊢
    omega
  · rw [htree, hfresh]
    intro w hw
    exact hvb w (hperm'.symm.subset (List.mem_cons_of_mem _ hw))
  · intro p hp
    rw [hnodesok hok, hdel] at hp
    have hpmem : p ∈ r.nodes := by
      rw [hdecomp]
      rcases List.mem_append.1 hp with h' | h'
      · exact List.mem_append_left _ h'
      · exact List.mem_append_right _ (List.mem_cons_of_mem _ h')
    obtain ⟨huid, hsix, nd2, hnd2, hnd2vid⟩ := hent p hpmem
    have hplen' : ((goSplit (getRegistryKey
        (heapVal r.heap p.2).1)).reverse).length = 6 := by
      rw [List.length_reverse]; exact hsix
    have hne : (goSplit (getRegistryKey (heapVal r.heap p.2).1)).reverse ≠
        (goSplit (getRegistryKey s)).reverse := by
      intro heq
      rw [heq, hnd] at hnd2
      injection hnd2 with hnd2
      have hpv : p.2 = v := by rw [← hnd2vid, ← hnd2, hndvid]
      have hc1 : (leafVids 6 r.tree).count v ≤ 1 :=
        List.nodup_iff_count_le_one.1 hvnd v
      have hc2 := hperm.count_eq v
      rw [hmap] at hc2
      have hvmem : v ∈ (l1 ++ l2).map Prod.snd :=
        List.mem_map.2 ⟨p, hp, hpv⟩
      have hne0 : ((l1 ++ l2).map Prod.snd).count v ≠ 0 := fun h0 =>
        (List.count_eq_zero.1 h0) hvmem
      simp [List.map_append, List.count_append, List.count_cons]
        at hc2 hne0
      omega
    rw [hheap, htree]
    refine ⟨huid, hsix, nd2, ?_, hnd2vid⟩
    rw [hpres _ hplen' hne]
    exact hnd2

/-- Every `ReachE` state satisfies the index/tree correspondence
invariant. -/
theorem reachE_inv : ∀ {r : DefaultRegistry}, ReachE r → InvE r := by
  intro r h
  induction h with
  | new =>
    refine ⟨?_, ?_, ?_, ?_, ?_, ?_⟩
    · rw [treeInv_succ_iff]
      refine ⟨?_, ?_, ?_⟩
      · simp [numLeaves_succ, DefaultRegistry.New]
      · simp [DefaultRegistry.New]
      · intro p hp
        simp [DefaultRegistry.New] at hp
    · simp [DefaultRegistry.New]
    · simp [DefaultRegistry.New, leafVids_succ]
    · simp [DefaultRegistry.New, leafVids_succ]
    · intro w hw
      simp [DefaultRegistry.New, leafVids_succ] at hw
    · intro p hp
      simp [DefaultRegistry.New] at hp
  | addOk s now hre hs hok ih => exact InvE_addOk ih hs hok
  | addErr s now e hre herr ih =>
    rename_i r
    rw [DefaultRegistry.Add_err r s now e herr]
    exact ih
  | removeStored s hre hl hstored ih =>
    exact (InvE_removeStored ih hl hstored).2
  | removeErr s e hre herr ih =>
    rename_i r
    rw [DefaultRegistry.Remove_err r s e herr]
    exact ih
  | removeUUID u hre ih =>
    rename_i r
    rcases hlk : alookup r.nodes u with _ | v
    · have hid : (r.RemoveUUID u).1 = r := by
        simp [DefaultRegistry.RemoveUUID, hlk]
      rw [hid]
      exact ih
    · have hRU : r.RemoveUUID u = r.Remove (heapVal r.heap v).1 := by
        simp [DefaultRegistry.RemoveUUID, hlk]
      rw [hRU]
      have hmem := mem_of_alookup_eq_some hlk
      have hu : (heapVal r.heap v).1.uuid = u := (ih.2.2.2.2.2 (u, v) hmem).1
      have hl' : alookup r.nodes (heapVal r.heap v).1.uuid = some v := by
        rw [hu]; exact hlk
      exact (InvE_removeStored ih hl' rfl).2
  | updateTTL u ttl now hre ih =>
    rename_i r
    rcases hlk : alookup r.nodes u with _ | v
    · have hid : (r.UpdateTTL u ttl now).1 = r := by
        simp [DefaultRegistry.UpdateTTL, hlk]
      rw [hid]
      exact ih
    · have htree : (r.UpdateTTL u ttl now).1.tree = r.tree := by
        simp [DefaultRegistry.UpdateTTL, hlk]
      have hnodes : (r.UpdateTTL u ttl now).1.nodes = r.nodes := by
        simp [DefaultRegistry.UpdateTTL, hlk]
      have hfresh : (r.UpdateTTL u ttl now).1.fresh = r.fresh := by
        simp [DefaultRegistry.UpdateTTL, hlk]
      have hheap : (r.UpdateTTL u ttl now).1.heap =
          ainsert r.heap v ({ (heapVal r.heap v).1 with ttl := ttl },
            getExpirationTime ttl now) := by
        simp [DefaultRegistry.UpdateTTL, hlk]
      obtain ⟨hti, hknd, hvnd, hperm, hvb, hent⟩ := ih
      refine ⟨?_, ?_, ?_, ?_, ?_, ?_⟩
      · rw [htree]; exact hti
      · rw [hnodes]; exact hknd
      · rw [htree]; exact hvnd
      · rw [hnodes, htree]; exact hperm
      · rw [htree, hfresh]; exact hvb
      · intro p hp
        rw [hnodes] at hp
        obtain ⟨huid, hsix, nd2, hnd2, hv2⟩ := hent p hp
        rw [htree, hheap]
        by_cases hv : p.2 = v
        · have hder : heapVal (ainsert r.heap v
              ({ (heapVal r.heap v).1 with ttl := ttl },
                getExpirationTime ttl now)) v =
              ({ (heapVal r.heap v).1 with ttl := ttl },
                getExpirationTime ttl now) := by
            simp [heapVal]
          rw [hv, hder]
          simp only []
          rw [hv] at huid hsix hnd2 hv2
          refine ⟨huid, ?_, nd2, ?_, hv2⟩
          · show sixKey { (heapVal r.heap v).1 with ttl := ttl }
            unfold sixKey
            rw [getRegistryKey_ttl]
            exact hsix
          · rw [getRegistryKey_ttl]
            exact hnd2
        · rw [heapVal_congr (alookup_ainsert_ne r.heap _ hv)]
          exact ⟨huid, hsix, nd2, hnd2, hv2⟩

/-- **C1** (amended): the stated tree/index correspondence holds in every
state reachable from `New` when callers obey the spec's contract —
services passed to `Add` encode to six-label keys and `Remove` is given the
record stored for its UUID (failing calls, `RemoveUUID`, `UpdateTTL` and
the read-only operations are unrestricted).  Then the identity index has
one entry per UUID, the multiset of ids it stores is exactly the multiset
of leaf ids reachable from the root, and each entry's stored service
resolves through the tree to a childless leaf carrying the entry's id.
Without the contract the correspondence is broken by a case-forged
`Remove`: see `C1_counterexample`. -/
theorem C1_index_tree_correspondence (r : DefaultRegistry) (h : ReachE r) :
    (r.nodes.map Prod.fst).Nodup ∧
    (r.nodes.map Prod.snd).Perm (leafVids 6 r.tree) ∧
    ∀ p ∈ r.nodes, ∃ nd,
      Node.findRev r.tree
        ((goSplit (getRegistryKey (heapVal r.heap p.2).1)).reverse) =
        some nd ∧
      nd.vid = p.2 ∧ nd.leaves = [] := by
  obtain ⟨hti, hknd, hvnd, hperm, hvb, hent⟩ := reachE_inv h
  refine ⟨hknd, hperm, ?_⟩
  intro p hp
  obtain ⟨huid, hsix, nd, hnd, hvid⟩ := hent p hp
  have hplen : ((goSplit (getRegistryKey
      (heapVal r.heap p.2).1)).reverse).length = 6 := by
    rw [List.length_reverse]; exact hsix
  exact ⟨nd, hnd, hvid, (findRev_treeInv _ 6 r.tree nd hplen hti hnd).1⟩

/-- Witness for C1: the correspondence holds in the one-service registry
`regA`, reached by a single well-behaved `Add`. -/
theorem C1_index_tree_correspondence_witness :
    (regA.nodes.map Prod.fst).Nodup ∧
    (regA.nodes.map Prod.snd).Perm (leafVids 6 regA.tree) ∧
    ∀ p ∈ regA.nodes, ∃ nd,
      Node.findRev regA.tree
        ((goSplit (getRegistryKey (heapVal regA.heap p.2).1)).reverse) =
        some nd ∧
      nd.vid = p.2 ∧ nd.leaves = [] :=
  C1_index_tree_correspondence regA
    (ReachE.addOk svcA 0 ReachE.new (by decide) (by decide))

/-- Counterexample to C1 as stated: `Remove` keyed by the case-forged
service `svcU` (UUID `"U1"`) succeeds — the encoded key is lowercased, so
the tree removal deletes `svcA`'s leaf — but `delete(r.nodes, "U1")`
misses the stored key `"u1"`.  The index entry survives pointing into an
empty tree: `GetUUID` still answers for `"u1"` while `Get` on the very
name it claims to serve fails. -/
theorem C1_counterexample :
    (regA.Remove svcU).2 = .ok () ∧
    regE.nodes = [("u1", 6)] ∧
    regE.tree = Node.mk [] 0 0 0 ∧
    regE.GetUUID "u1" = .ok svcA ∧
    regE.Get "u1.h.r.v.n.e" = .error .ErrNotExists :=
  ⟨by decide, by decide, rfl, by decide, by decide⟩
